import Mathlib

/-!
Verification development for the open-ce-builder dependency-graph core
(`src/open_ce/build_tree.py`).  The Python data model and algorithms are
shallowly embedded: Python sets of strings become `Finset String`, Python
lists become `List`, the networkx-style directed graph becomes an explicit
structure of node and edge lists, and stateful loops become folds or
fuel-indexed recursions.  Where the Python relies on modules that are not
part of the sources under verification (`utils`, `build_command`,
`graph.OpenCEGraph`), the corresponding definitions are modelled from the
specification and marked as such in their doc comments.
-/

/-! ## Python-style string splitting

`str.split()` with no arguments splits on runs of whitespace and drops
empty fields.  We model it on the character list so that everything
reduces by `rfl`/`decide`. -/

/-- Auxiliary splitter over characters: `acc` is the (reversed) current field. -/
def pySplitAux : List Char → List Char → List (List Char)
  | [], acc => if acc.isEmpty then [] else [acc.reverse]
  | c :: cs, acc =>
    if c = ' ' then
      if acc.isEmpty then pySplitAux cs [] else acc.reverse :: pySplitAux cs []
    else pySplitAux cs (c :: acc)

/-- Python `s.split()` (whitespace split, empty fields dropped). -/
def pySplit (s : String) : List String :=
  (pySplitAux s.toList []).map fun l => String.mk l

/-- Modelled from the spec: `utils.remove_version` (the `utils` module is not
under `src/`).  Glossary: a qualifier-stripped name is "a package name with
its version/constraint suffix removed"; the suffix is separated from the
name by whitespace, so we keep the part before the first blank. -/
def removeVersion (s : String) : String := (pySplit s).headD s

/-- Python `dep.split()[0]`, as used inline by `check_matching`. -/
def pyName (s : String) : String := (pySplit s).headD s

/-! ## Build commands and dependency nodes -/

/-- Embeds `BuildCommand` (`build_command.py`, an external collaborator of the
core).  Only the fields the verified code reads are kept; equality is
structural, a faithful model of the spec's "equal iff their identifying
fields match". -/
structure BuildCommand where
  recipe : String
  repository : String
  packages : List String
  version : List String
  run_dependencies : List String
  host_dependencies : List String
  build_dependencies : List String
  test_dependencies : List String
  output_files : List String
  channels : List String
  python : Option String
  build_type : Option String
  mpi_type : Option String
  cudatoolkit : Option String
deriving DecidableEq, Repr

/-- Modelled from the spec: `BuildCommand.get_all_dependencies`
(`build_command.py` is not under `src/`).  The spec describes "four
dependency sets (run, host, build, test)" and the edge linker iterating over
"every dependency string in its build command's aggregate dependency
requirement", so the aggregate is the union of the four sets. -/
def BuildCommand.getAllDependencies (c : BuildCommand) : List String :=
  (c.run_dependencies ++ c.host_dependencies ++ c.build_dependencies ++
    c.test_dependencies).dedup

/-- Embeds `DependencyNode` (`build_tree.py`, lines 38-65): a set of package
strings, an optional build command, and a priority-ordered channel list.
Node identity in the graph model is structural. -/
structure DependencyNode where
  packages : Finset String
  build_command : Option BuildCommand
  channels : List String
deriving DecidableEq

/-- Embeds `DependencyNode.__eq__` (lines 60-65): when both build commands
are present compare them, otherwise compare the package sets. -/
def pyEq (a b : DependencyNode) : Bool :=
  match a.build_command, b.build_command with
  | some c1, some c2 => decide (c1 = c2)
  | _, _ => decide (a.packages = b.packages)

/-- The external node `DependencyNode({dep})` created by `_create_edges` and
`_create_remote_deps` for an unsatisfied dependency string. -/
def mkExternal (dep : String) : DependencyNode := ⟨{dep}, none, []⟩

/-! ## The Python object model of `DependencyNode.__init__` / `__hash__`

`__init__` stores `hash(self.build_command)` into `self._hash_val` once;
`__hash__` only ever returns the stored value.  We model the object with an
explicit stored hash field and the ambient Python `hash` on (optional)
build commands as a function parameter, and model attribute assignment as
field updates that do not touch the stored hash. -/

structure PyDepNodeObj where
  packages : Finset String
  build_command : Option BuildCommand
  channels : List String
  hash_val : Int
deriving DecidableEq

/-- Embeds `DependencyNode.__init__` (lines 42-49): `channels if channels
else []` (a `None` or empty channel list becomes `[]`), and
`self._hash_val = hash(self.build_command)` for the ambient hash `h`. -/
def initDependencyNode (h : Option BuildCommand → Int) (packages : Finset String)
    (build_command : Option BuildCommand) (channels : Option (List String)) :
    PyDepNodeObj :=
  ⟨packages, build_command,
    match channels with
    | some cs => if cs.isEmpty then [] else cs
    | none => [],
    h build_command⟩

/-- Embeds `DependencyNode.__hash__` (lines 57-58): returns the stored value. -/
def nodeHash (n : PyDepNodeObj) : Int := n.hash_val

/-- Attribute assignment `node.packages = p`. -/
def setPackages (n : PyDepNodeObj) (p : Finset String) : PyDepNodeObj :=
  ⟨p, n.build_command, n.channels, n.hash_val⟩

/-- Attribute assignment `node.channels = cs`. -/
def setChannels (n : PyDepNodeObj) (cs : List String) : PyDepNodeObj :=
  ⟨n.packages, n.build_command, cs, n.hash_val⟩

/-- Attribute assignment `node.build_command = c`. -/
def setBuildCommand (n : PyDepNodeObj) (c : Option BuildCommand) : PyDepNodeObj :=
  ⟨n.packages, c, n.channels, n.hash_val⟩

/-! ## The installable-set merge rule (`get_installable_packages.check_matching`) -/

/-- Embeds `check_matching` (lines 598-618).  The result is the (possibly
mutated) accumulating set together with the entry the caller should add, if
any: an exact duplicate is dropped; a qualified entry whose bare name is in
the set replaces that unqualified entry; an entry whose base name is already
represented is dropped; otherwise the entry is returned for addition. -/
def checkMatching (depsSet : Finset String) (dep : String) :
    Finset String × Option String :=
  if dep ∈ depsSet then (depsSet, none)
  else
    let depName := pyName dep
    if depName ∈ depsSet ∧ 1 < (pySplit dep).length then
      (depsSet.erase depName, some dep)
    else if ∃ d ∈ depsSet, pyName d = depName then (depsSet, none)
    else (depsSet, some dep)

/-- One step of `_get_unique_deps_names`: run `check_matching` and add the
returned entry when it is truthy (a non-empty string). -/
def addUniqueDep (s : Finset String) (dep : String) : Finset String :=
  let r := checkMatching s dep
  match r.2 with
  | some d => if d = "" then r.1 else insert d r.1
  | none => r.1

/-- The merge rule applied to a whole input collection, i.e. the loop of
`_get_unique_deps_names` (lines 620-628) without the preliminary
`generalize_version` pass. -/
def mergeDeps (l : List String) : Finset String := l.foldl addUniqueDep ∅

/-! ## Directed graphs

`graph.OpenCEGraph` is not under `src/`; the spec describes it as a directed
graph of nodes whose edge `A → B` means "A depends on B".  Modelled from the
spec: nodes and edges are kept in insertion order, re-adding an existing
node or edge is a no-op, and removing a node removes its incident edges. -/

structure Graph (V : Type) where
  nodes : List V
  edges : List (V × V)
deriving DecidableEq

namespace Graph

variable {V : Type} [DecidableEq V]

/-- Well-formedness: edges join nodes, and the node list has no duplicates. -/
def WF (G : Graph V) : Prop :=
  (∀ e ∈ G.edges, e.1 ∈ G.nodes ∧ e.2 ∈ G.nodes) ∧ G.nodes.Nodup

/-- networkx `add_node`: a no-op when the node is present. -/
def addNode (G : Graph V) (v : V) : Graph V :=
  if v ∈ G.nodes then G else ⟨G.nodes ++ [v], G.edges⟩

/-- networkx `add_edge`: missing endpoints are added as nodes, re-adding an
existing edge is a no-op. -/
def addEdge (G : Graph V) (a b : V) : Graph V :=
  let G1 := addNode (addNode G a) b
  if (a, b) ∈ G1.edges then G1 else ⟨G1.nodes, G1.edges ++ [(a, b)]⟩

/-- networkx `remove_node`: removes the node and every incident edge. -/
def removeNode (G : Graph V) (v : V) : Graph V :=
  ⟨G.nodes.filter (fun x => decide (x ≠ v)),
   G.edges.filter (fun e => decide (e.1 ≠ v) && decide (e.2 ≠ v))⟩

/-- `G.successors v` as a list. -/
def succList (G : Graph V) (v : V) : List V :=
  (G.edges.filter fun e => decide (e.1 = v)).map Prod.snd

/-- `G.predecessors v` as a list. -/
def predList (G : Graph V) (v : V) : List V :=
  (G.edges.filter fun e => decide (e.2 = v)).map Prod.fst

/-- The edge relation of the graph. -/
def EdgeRel (G : Graph V) (a b : V) : Prop := (a, b) ∈ G.edges

instance (G : Graph V) (a b : V) : Decidable (G.EdgeRel a b) := by
  unfold EdgeRel; infer_instance

/-- "b is reachable from a": the reflexive-transitive closure of the edges. -/
def Reaches (G : Graph V) (a b : V) : Prop := Relation.ReflTransGen G.EdgeRel a b

/-- "a depends on b, directly or transitively": at least one edge. -/
def Depends (G : Graph V) (a b : V) : Prop := Relation.TransGen G.EdgeRel a b

end Graph

/-! ## Deciding reachability

Reachability is decided by saturating the set of nodes reachable from the
source: one step adds every edge-target of the current set, and after
`G.edges.length + 1` steps the set is saturated. -/

namespace Graph

variable {V : Type} [DecidableEq V]

/-- One saturation step: add all successors of members of `s`. -/
def stepSet (G : Graph V) (s : Finset V) : Finset V :=
  s ∪ ((G.edges.filter fun e => decide (e.1 ∈ s)).map Prod.snd).toFinset

/-- The saturated reachable set from `a`. -/
def reachSet (G : Graph V) (a : V) : Finset V :=
  (G.stepSet)^[G.edges.length + 1] {a}

theorem subset_stepSet (G : Graph V) (s : Finset V) : s ⊆ G.stepSet s :=
  Finset.subset_union_left

theorem stepSet_mono (G : Graph V) {s t : Finset V} (h : s ⊆ t) :
    G.stepSet s ⊆ G.stepSet t := by
  intro x hx
  rcases Finset.mem_union.1 hx with h1 | h1
  · exact Finset.mem_union_left _ (h h1)
  · refine Finset.mem_union_right _ ?_
    simp only [List.mem_toFinset, List.mem_map, List.mem_filter] at h1 ⊢
    obtain ⟨e, ⟨he, hs⟩, rfl⟩ := h1
    exact ⟨e, ⟨he, by simpa using h (by simpa using hs)⟩, rfl⟩

theorem mem_stepSet_elim (G : Graph V) {s : Finset V} {x : V}
    (hx : x ∈ G.stepSet s) : x ∈ s ∨ ∃ y ∈ s, G.EdgeRel y x := by
  rcases Finset.mem_union.1 hx with h1 | h1
  · exact Or.inl h1
  · right
    simp only [List.mem_toFinset, List.mem_map, List.mem_filter] at h1
    obtain ⟨e, ⟨he, hs⟩, rfl⟩ := h1
    exact ⟨e.1, by simpa using hs, he⟩

theorem mem_stepSet_of_edge (G : Graph V) {s : Finset V} {x y : V}
    (hx : x ∈ s) (hxy : G.EdgeRel x y) : y ∈ G.stepSet s := by
  refine Finset.mem_union_right _ ?_
  simp only [List.mem_toFinset, List.mem_map, List.mem_filter]
  exact ⟨(x, y), ⟨hxy, by simpa using hx⟩, rfl⟩

theorem iter_stepSet_sound (G : Graph V) (a : V) :
    ∀ k x, x ∈ (G.stepSet)^[k] {a} → G.Reaches a x := by
  intro k
  induction k with
  | zero => intro x hx; simp at hx; subst hx; exact Relation.ReflTransGen.refl
  | succ k ih =>
    intro x hx
    rw [Function.iterate_succ_apply'] at hx
    rcases G.mem_stepSet_elim hx with h1 | ⟨y, hy, he⟩
    · exact ih x h1
    · exact Relation.ReflTransGen.tail (ih y hy) he

theorem iter_stepSet_complete (G : Graph V) {a x : V} (h : G.Reaches a x) :
    ∃ k, x ∈ (G.stepSet)^[k] {a} := by
  induction h with
  | refl => exact ⟨0, by simp⟩
  | tail _ he ih =>
    obtain ⟨k, hk⟩ := ih
    exact ⟨k + 1, by
      rw [Function.iterate_succ_apply']
      exact G.mem_stepSet_of_edge hk he⟩

theorem iter_stepSet_le (G : Graph V) (a : V) {k m : Nat} (h : k ≤ m) :
    (G.stepSet)^[k] {a} ⊆ (G.stepSet)^[m] {a} := by
  induction m with
  | zero => simp_all
  | succ m ih =>
    rcases Nat.lt_or_ge k (m + 1) with h1 | h1
    · intro x hx
      rw [Function.iterate_succ_apply']
      exact G.subset_stepSet _ (ih (Nat.lt_succ_iff.1 h1) hx)
    · have : k = m + 1 := le_antisymm h h1
      subst this; exact fun x hx => hx

theorem iter_stepSet_fix (G : Graph V) (a : V) {k : Nat}
    (h : G.stepSet ((G.stepSet)^[k] {a}) = (G.stepSet)^[k] {a}) :
    ∀ m, (G.stepSet)^[k + m] {a} = (G.stepSet)^[k] {a} := by
  intro m
  induction m with
  | zero => rfl
  | succ m ih =>
    have harr : k + (m + 1) = (k + m) + 1 := by omega
    rw [harr, Function.iterate_succ_apply', ih, h]

theorem iter_stepSet_bounded (G : Graph V) (a : V) :
    ∀ k, (G.stepSet)^[k] {a} ⊆ insert a (G.edges.map Prod.snd).toFinset := by
  intro k
  induction k with
  | zero => simp
  | succ k ih =>
    rw [Function.iterate_succ_apply']
    intro x hx
    rcases G.mem_stepSet_elim hx with h1 | ⟨y, _, he⟩
    · exact ih h1
    · refine Finset.mem_insert_of_mem ?_
      simp only [List.mem_toFinset, List.mem_map]
      exact ⟨(y, x), he, rfl⟩

theorem iter_stepSet_grows (G : Graph V) (a : V) :
    ∀ k, (∀ j < k, G.stepSet ((G.stepSet)^[j] {a}) ≠ (G.stepSet)^[j] {a}) →
      k + 1 ≤ ((G.stepSet)^[k] {a}).card := by
  intro k
  induction k with
  | zero => simp
  | succ k ih =>
    intro h
    have h1 : k + 1 ≤ ((G.stepSet)^[k] {a}).card :=
      ih fun j hj => h j (Nat.lt_succ_of_lt hj)
    have h2 : (G.stepSet)^[k] {a} ⊂ (G.stepSet)^[k + 1] {a} := by
      rw [Function.iterate_succ_apply']
      exact ssubset_of_subset_of_ne (G.subset_stepSet _)
        (fun heq => h k (Nat.lt_succ_self k) heq.symm)
    exact Nat.succ_le_of_lt (lt_of_le_of_lt h1 (Finset.card_lt_card h2))

theorem reaches_iff_mem_reachSet (G : Graph V) (a b : V) :
    G.Reaches a b ↔ b ∈ G.reachSet a := by
  set N := G.edges.length + 1 with hN
  have hfix : ∃ j < N, G.stepSet ((G.stepSet)^[j] {a}) = (G.stepSet)^[j] {a} := by
    by_contra hcon
    push_neg at hcon
    have h1 : N + 1 ≤ ((G.stepSet)^[N] {a}).card :=
      G.iter_stepSet_grows a N (fun j hj => hcon j hj)
    have h2 : ((G.stepSet)^[N] {a}).card ≤ N := by
      calc ((G.stepSet)^[N] {a}).card
          ≤ (insert a (G.edges.map Prod.snd).toFinset).card :=
            Finset.card_le_card (G.iter_stepSet_bounded a N)
        _ ≤ (G.edges.map Prod.snd).toFinset.card + 1 := Finset.card_insert_le _ _
        _ ≤ (G.edges.map Prod.snd).length + 1 := by
            exact Nat.add_le_add_right (G.edges.map Prod.snd).toFinset_card_le 1
        _ = N := by simp [hN]
    omega
  obtain ⟨j, hj, hfixj⟩ := hfix
  constructor
  · intro h
    obtain ⟨k, hk⟩ := G.iter_stepSet_complete h
    rcases Nat.le_total k N with hle | hle
    · exact G.iter_stepSet_le a hle hk
    · have : (G.stepSet)^[k] {a} = (G.stepSet)^[j] {a} := by
        have hk' : k = j + (k - j) := by omega
        rw [hk']; exact G.iter_stepSet_fix a hfixj _
      have hNj : (G.stepSet)^[N] {a} = (G.stepSet)^[j] {a} := by
        have hN' : N = j + (N - j) := by omega
        rw [hN']; exact G.iter_stepSet_fix a hfixj _
      rw [reachSet, ← hN, hNj, ← this]
      exact hk
  · intro h
    exact G.iter_stepSet_sound a _ b h

instance decidableReaches (G : Graph V) (a b : V) : Decidable (G.Reaches a b) :=
  decidable_of_iff (b ∈ G.reachSet a) (G.reaches_iff_mem_reachSet a b).symm

theorem depends_iff (G : Graph V) (a b : V) :
    G.Depends a b ↔ ∃ e ∈ G.edges, e.1 = a ∧ G.Reaches e.2 b := by
  constructor
  · intro h
    obtain ⟨c, hac, hcb⟩ := Relation.TransGen.head'_iff.1 h
    exact ⟨(a, c), hac, rfl, hcb⟩
  · rintro ⟨⟨x, y⟩, he, rfl, hr⟩
    exact Relation.TransGen.head' he hr

instance decidableDepends (G : Graph V) (a b : V) : Decidable (G.Depends a b) :=
  decidable_of_iff _ (G.depends_iff a b).symm

/-- Acyclicity: no edge closes a cycle. -/
def Acyclic (G : Graph V) : Prop := ∀ a b : V, G.EdgeRel a b → ¬ G.Reaches b a

theorem acyclic_iff (G : Graph V) :
    G.Acyclic ↔ ∀ e ∈ G.edges, ¬ G.Reaches e.2 e.1 := by
  constructor
  · intro h e he; exact h e.1 e.2 he
  · intro h a b hab; exact h (a, b) hab

instance decidableAcyclic (G : Graph V) : Decidable G.Acyclic :=
  decidable_of_iff _ (G.acyclic_iff).symm

theorem acyclic_no_self (G : Graph V) (h : G.Acyclic) (a : V) : ¬ G.EdgeRel a a :=
  fun he => h a a he Relation.ReflTransGen.refl

end Graph

/-! ## Depth-first postorder (`networkx.dfs_postorder_nodes`)

A fuel-indexed recursive DFS with a visited set.  `dfsVisit` explores one
root; `dfsFold` runs the given exploration over a list of roots, threading
the visited set; the output list is the postorder (finish order).  The
recursion is structural in the fuel so that concrete runs reduce by
`decide`/`rfl`. -/

namespace Graph

variable {V : Type} [DecidableEq V]

/-- Run `f` over a list of roots left to right, threading the visited set
and concatenating the postorder outputs. -/
def dfsFold (f : V → Finset V → Finset V × List V) :
    List V → Finset V → Finset V × List V
  | [], vis => (vis, [])
  | u :: us, vis =>
    let r1 := f u vis
    let r2 := dfsFold f us r1.1
    (r2.1, r1.2 ++ r2.2)

/-- Visit one node: skip it when already visited, otherwise mark it, explore
its successors, and emit it after them (postorder). -/
def dfsVisit (G : Graph V) : Nat → V → Finset V → Finset V × List V
  | 0, _, vis => (vis, [])
  | fuel + 1, v, vis =>
    if v ∈ vis then (vis, [])
    else
      let r := dfsFold (dfsVisit G fuel) (G.succList v) (insert v vis)
      (r.1, r.2 ++ [v])

/-- The postorder node sequence of a DFS seeded at `roots`. -/
def dfsPostorderFrom (G : Graph V) (roots : List V) : List V :=
  (dfsFold (dfsVisit G (G.nodes.length + 1)) roots ∅).2

end Graph

/-! ## Correctness of the DFS postorder

The key invariant: every prefix of the emitted postorder is closed under
successors, up to nodes that were already visited before the call (`D`) or
are still open on the DFS stack (`A`).  At the top level both escape sets
are empty, so every prefix of the full postorder is successor-closed, which
is exactly "each node appears after everything it depends on". -/

namespace Graph

variable {V : Type} [DecidableEq V]

/-- Number of unvisited graph nodes. -/
def NV (G : Graph V) (vis : Finset V) : Nat := (G.nodes.toFinset \ vis).card

theorem NV_mono (G : Graph V) {vis vis' : Finset V} (h : vis ⊆ vis') :
    G.NV vis' ≤ G.NV vis :=
  Finset.card_le_card (Finset.sdiff_subset_sdiff (Finset.Subset.refl _) h)

theorem NV_insert_lt (G : Graph V) {v : V} {vis : Finset V}
    (hv : v ∈ G.nodes) (hvis : v ∉ vis) : G.NV (insert v vis) < G.NV vis := by
  refine Finset.card_lt_card ?_
  have hsub : G.nodes.toFinset \ insert v vis ⊆ G.nodes.toFinset \ vis :=
    Finset.sdiff_subset_sdiff (Finset.Subset.refl _) (Finset.subset_insert _ _)
  refine (Finset.ssubset_iff_of_subset hsub).2 ⟨v, ?_, ?_⟩
  · exact Finset.mem_sdiff.2 ⟨List.mem_toFinset.2 hv, hvis⟩
  · simp

theorem succList_mem (G : Graph V) {v u : V} : u ∈ G.succList v ↔ G.EdgeRel v u := by
  simp only [succList, List.mem_map, List.mem_filter, EdgeRel]
  constructor
  · rintro ⟨e, ⟨he, hv⟩, rfl⟩
    have : e.1 = v := by simpa using hv
    rwa [← this]
  · intro h
    exact ⟨(v, u), ⟨h, by simp⟩, rfl⟩

theorem succList_subset_nodes (G : Graph V) (hwf : G.WF) {v u : V}
    (h : u ∈ G.succList v) : u ∈ G.nodes :=
  (hwf.1 _ ((G.succList_mem).1 h)).2

/-- Every prefix `q` of `out` is successor-closed, up to the escape sets `D`
(nodes finished before this call) and `A` (nodes still open on the stack). -/
def BlockOK (G : Graph V) (D A : Finset V) (out : List V) : Prop :=
  ∀ q, q <+: out → ∀ w ∈ q, ∀ u, G.EdgeRel w u → u ∈ D ∨ u ∈ q ∨ u ∈ A

theorem prefix_append_cases {α : Type} {q l1 l2 : List α} (h : q <+: l1 ++ l2) :
    q <+: l1 ∨ ∃ q2, q2 <+: l2 ∧ q = l1 ++ q2 := by
  have hq : q = (l1 ++ l2).take q.length := List.prefix_iff_eq_take.1 h
  rcases Nat.le_total q.length l1.length with hle | hle
  · left
    rw [List.take_append_eq_append_take, Nat.sub_eq_zero_of_le hle] at hq
    simp only [List.take_zero, List.append_nil] at hq
    exact hq ▸ ⟨l1.drop q.length, List.take_append_drop _ _⟩
  · right
    refine ⟨l2.take (q.length - l1.length), ⟨l2.drop (q.length - l1.length),
      List.take_append_drop _ _⟩, ?_⟩
    rw [List.take_append_eq_append_take, List.take_of_length_le hle] at hq
    exact hq

/-- Postcondition of `dfsVisit fuel v vis`. -/
def VisitConcl (G : Graph V) (v : V) (vis : Finset V) (r : Finset V × List V) : Prop :=
  r.1 = vis ∪ r.2.toFinset ∧ r.2.Nodup ∧ (∀ x ∈ r.2, x ∉ vis ∧ x ∈ G.nodes) ∧
  v ∈ r.1 ∧ (∀ w ∈ r.2, G.Reaches v w) ∧
  (∀ A : Finset V, A ⊆ vis → BlockOK G (vis \ A) A r.2)

/-- Postcondition of `dfsFold f ws vis`. -/
def FoldConcl (G : Graph V) (ws : List V) (vis : Finset V) (r : Finset V × List V) : Prop :=
  r.1 = vis ∪ r.2.toFinset ∧ r.2.Nodup ∧ (∀ x ∈ r.2, x ∉ vis ∧ x ∈ G.nodes) ∧
  (∀ u ∈ ws, u ∈ r.1) ∧ (∀ w ∈ r.2, ∃ u ∈ ws, G.Reaches u w) ∧
  (∀ A : Finset V, A ⊆ vis → BlockOK G (vis \ A) A r.2)

theorem sdiff_union_of_fresh {vis A T : Finset V} (hfr : ∀ x ∈ T, x ∉ A) :
    (vis ∪ T) \ A = (vis \ A) ∪ T := by
  ext x
  simp only [Finset.mem_sdiff, Finset.mem_union]
  constructor
  · rintro ⟨h1 | h1, h2⟩
    · exact Or.inl ⟨h1, h2⟩
    · exact Or.inr h1
  · rintro (⟨h1, h2⟩ | h1)
    · exact ⟨Or.inl h1, h2⟩
    · exact ⟨Or.inr h1, hfr x h1⟩

theorem sdiff_insert_insert {v : V} {vis A : Finset V} (hvis : v ∉ vis) :
    insert v vis \ insert v A = vis \ A := by
  ext x
  simp only [Finset.mem_sdiff, Finset.mem_insert, not_or]
  constructor
  · rintro ⟨h1 | h1, h2, h3⟩
    · exact absurd h1 h2
    · exact ⟨h1, h3⟩
  · rintro ⟨h1, h2⟩
    exact ⟨Or.inr h1, fun he => hvis (he ▸ h1), h2⟩

theorem dfsFold_spec (G : Graph V) (fuel : Nat)
    (f : V → Finset V → Finset V × List V)
    (hf : ∀ v vis, G.NV vis < fuel → v ∈ G.nodes → VisitConcl G v vis (f v vis)) :
    ∀ ws vis, G.NV vis < fuel → (∀ u ∈ ws, u ∈ G.nodes) →
      FoldConcl G ws vis (dfsFold f ws vis) := by
  intro ws
  induction ws with
  | nil =>
    intro vis hfuel _
    unfold FoldConcl dfsFold
    refine ⟨by simp, List.nodup_nil, by simp, by simp, by simp, ?_⟩
    intro A _ q hq
    have hq' : q = [] := by simpa using hq
    simp [hq']
  | cons u us ih =>
    intro vis hfuel hws
    obtain ⟨h1eq, h1nd, h1fr, h1v, h1re, h1blk⟩ := hf u vis hfuel (hws u (by simp))
    have hsub : vis ⊆ (f u vis).1 := by rw [h1eq]; exact Finset.subset_union_left
    have hfuel2 : G.NV (f u vis).1 < fuel := lt_of_le_of_lt (G.NV_mono hsub) hfuel
    obtain ⟨h2eq, h2nd, h2fr, h2ws, h2re, h2blk⟩ :=
      ih (f u vis).1 hfuel2 (fun x hx => hws x (by simp [hx]))
    have hstep : dfsFold f (u :: us) vis =
        ((dfsFold f us (f u vis).1).1, (f u vis).2 ++ (dfsFold f us (f u vis).1).2) := rfl
    rw [hstep]
    unfold FoldConcl
    have hmem1 : ∀ x ∈ (f u vis).2, x ∈ (f u vis).1 := by
      intro x hx; rw [h1eq]; exact Finset.mem_union_right _ (List.mem_toFinset.2 hx)
    refine ⟨?_, ?_, ?_, ?_, ?_, ?_⟩
    · rw [h2eq, h1eq, List.toFinset_append, Finset.union_assoc]
    · rw [List.nodup_append]
      exact ⟨h1nd, h2nd, fun x hx1 hx2 => (h2fr x hx2).1 (hmem1 x hx1)⟩
    · intro x hx
      rcases List.mem_append.1 hx with hx1 | hx1
      · exact h1fr x hx1
      · exact ⟨fun hv => (h2fr x hx1).1 (hsub hv), (h2fr x hx1).2⟩
    · intro w hw
      rcases List.mem_cons.1 hw with rfl | hw1
      · rw [h2eq]; exact Finset.mem_union_left _ h1v
      · exact h2ws w hw1
    · intro w hw
      rcases List.mem_append.1 hw with hw1 | hw1
      · exact ⟨u, by simp, h1re w hw1⟩
      · obtain ⟨x, hx, hr⟩ := h2re w hw1
        exact ⟨x, by simp [hx], hr⟩
    · intro A hA
      have B1 := h1blk A hA
      have B2 := h2blk A (hA.trans hsub)
      have hD : (f u vis).1 \ A = (vis \ A) ∪ (f u vis).2.toFinset := by
        rw [h1eq]
        exact sdiff_union_of_fresh fun x hx =>
          fun hxA => (h1fr x (List.mem_toFinset.1 hx)).1 (hA hxA)
      rw [hD] at B2
      intro q hq w hw u' hu'
      rcases prefix_append_cases hq with hq1 | ⟨q2, hq2, rfl⟩
      · exact B1 q hq1 w hw u' hu'
      · rcases List.mem_append.1 hw with hw1 | hw1
        · rcases B1 (f u vis).2 (List.prefix_refl _) w hw1 u' hu' with h | h | h
          · exact Or.inl h
          · exact Or.inr (Or.inl (List.mem_append_left _ h))
          · exact Or.inr (Or.inr h)
        · rcases B2 q2 hq2 w hw1 u' hu' with h | h | h
          · rcases Finset.mem_union.1 h with h1 | h1
            · exact Or.inl h1
            · exact Or.inr (Or.inl (List.mem_append_left _ (List.mem_toFinset.1 h1)))
          · exact Or.inr (Or.inl (List.mem_append_right _ h))
          · exact Or.inr (Or.inr h)

theorem dfsVisit_spec (G : Graph V) (hwf : G.WF) (hacy : G.Acyclic) :
    ∀ fuel v vis, G.NV vis < fuel → v ∈ G.nodes →
      VisitConcl G v vis (dfsVisit G fuel v vis) := by
  intro fuel
  induction fuel with
  | zero => intro v vis h _; exact absurd h (Nat.not_lt_zero _)
  | succ fuel ih =>
    intro v vis hfuel hv
    by_cases hvis : v ∈ vis
    · have hres : dfsVisit G (fuel + 1) v vis = (vis, []) := by simp [dfsVisit, hvis]
      rw [hres]
      unfold VisitConcl
      refine ⟨by simp, List.nodup_nil, by simp, hvis, by simp, ?_⟩
      intro A _ q hq
      have hq' : q = [] := by simpa using hq
      simp [hq']
    · have hvfuel : G.NV (insert v vis) < fuel := by
        have h1 : G.NV (insert v vis) < G.NV vis := G.NV_insert_lt hv hvis
        omega
      obtain ⟨h1eq, h1nd, h1fr, h1ws, h1re, h1blk⟩ :=
        dfsFold_spec G fuel (dfsVisit G fuel) (fun w vw hw1 hw2 => ih w vw hw1 hw2)
          (G.succList v) (insert v vis) hvfuel
          (fun x hx => G.succList_subset_nodes hwf hx)
      have hres : dfsVisit G (fuel + 1) v vis =
          ((dfsFold (dfsVisit G fuel) (G.succList v) (insert v vis)).1,
           (dfsFold (dfsVisit G fuel) (G.succList v) (insert v vis)).2 ++ [v]) := by
        simp [dfsVisit, hvis]
      rw [hres]
      unfold VisitConcl
      have hreach : ∀ w ∈ (dfsFold (dfsVisit G fuel) (G.succList v) (insert v vis)).2,
          G.Reaches v w := by
        intro w hw
        obtain ⟨x, hx, hr⟩ := h1re w hw
        exact Relation.ReflTransGen.head ((G.succList_mem).1 hx) hr
      refine ⟨?_, ?_, ?_, ?_, ?_, ?_⟩
      · rw [h1eq, List.toFinset_append]
        ext x
        simp only [Finset.mem_union, Finset.mem_insert, List.toFinset_cons,
          List.toFinset_nil, insert_emptyc_eq, Finset.mem_singleton]
        tauto
      · rw [List.nodup_append]
        refine ⟨h1nd, List.nodup_singleton v, ?_⟩
        intro x hx1 hx2
        have hxv : x = v := by simpa using hx2
        exact (h1fr x hx1).1 (by simp [hxv])
      · intro x hx
        rcases List.mem_append.1 hx with hx1 | hx1
        · exact ⟨fun hc => (h1fr x hx1).1 (Finset.mem_insert_of_mem hc), (h1fr x hx1).2⟩
        · have hxv : x = v := by simpa using hx1
          exact ⟨hxv ▸ hvis, hxv ▸ hv⟩
      · rw [h1eq]; exact Finset.mem_union_left _ (Finset.mem_insert_self _ _)
      · intro w hw
        rcases List.mem_append.1 hw with hw1 | hw1
        · exact hreach w hw1
        · have hwv : w = v := by simpa using hw1
          exact hwv ▸ Relation.ReflTransGen.refl
      · intro A hA
        have B1 := h1blk (insert v A) (Finset.insert_subset_insert _ hA)
        rw [sdiff_insert_insert hvis] at B1
        intro q hq w hw u' hu'
        rcases prefix_append_cases hq with hq1 | ⟨q2, hq2, rfl⟩
        · rcases B1 q hq1 w hw u' hu' with h | h | h
          · exact Or.inl h
          · exact Or.inr (Or.inl h)
          · rcases Finset.mem_insert.1 h with rfl | h1
            · exact absurd (hreach w (hq1.subset hw)) (hacy w u' hu')
            · exact Or.inr (Or.inr h1)
        · rcases List.mem_append.1 hw with hw1 | hw1
          · rcases B1 _ (List.prefix_refl _) w hw1 u' hu' with h | h | h
            · exact Or.inl h
            · exact Or.inr (Or.inl (List.mem_append_left _ h))
            · rcases Finset.mem_insert.1 h with rfl | h1
              · exact absurd (hreach w hw1) (hacy w u' hu')
              · exact Or.inr (Or.inr h1)
          · have hwv : w = v := by
              have := hq2.subset hw1; simpa using this
            subst hwv
            have hu'' : u' ∈ (dfsFold (dfsVisit G fuel) (G.succList w) (insert w vis)).1 :=
              h1ws u' ((G.succList_mem).2 hu')
            rw [h1eq] at hu''
            rcases Finset.mem_union.1 hu'' with h | h
            · rcases Finset.mem_insert.1 h with h1 | h1
              · rw [h1] at hu'
                exact absurd hu' (G.acyclic_no_self hacy _)
              · by_cases hA2 : u' ∈ A
                · exact Or.inr (Or.inr hA2)
                · exact Or.inl (Finset.mem_sdiff.2 ⟨h1, hA2⟩)
            · exact Or.inr (Or.inl (List.mem_append_left _ (List.mem_toFinset.1 h)))

/-- Top-level DFS postorder specification: the output has no duplicates,
consists of graph nodes, and every prefix is successor-closed. -/
theorem dfsPostorderFrom_spec (G : Graph V) (hwf : G.WF) (hacy : G.Acyclic)
    (roots : List V) (hroots : ∀ u ∈ roots, u ∈ G.nodes) :
    (G.dfsPostorderFrom roots).Nodup ∧
    (∀ x ∈ G.dfsPostorderFrom roots, x ∈ G.nodes) ∧
    (∀ q, q <+: G.dfsPostorderFrom roots → ∀ w ∈ q, ∀ u, G.EdgeRel w u → u ∈ q) := by
  have hfuel : G.NV ∅ < G.nodes.length + 1 := by
    unfold NV
    rw [Finset.sdiff_empty]
    exact Nat.lt_succ_of_le G.nodes.toFinset_card_le
  obtain ⟨_, hnd, hfr, _, _, hblk⟩ :=
    dfsFold_spec G (G.nodes.length + 1) (dfsVisit G (G.nodes.length + 1))
      (fun v vis h1 h2 => G.dfsVisit_spec hwf hacy _ v vis h1 h2)
      roots ∅ hfuel hroots
  refine ⟨hnd, fun x hx => (hfr x hx).2, ?_⟩
  intro q hq w hw u hu
  rcases hblk ∅ (Finset.Subset.refl _) q hq w hw u hu with h | h | h
  · simp at h
  · exact h
  · simp at h

end Graph

/-! ## List index utilities

A small self-contained index function (position of the first occurrence)
used to state "yielded before". -/

def listIdx {α : Type} [DecidableEq α] : List α → α → Nat
  | [], _ => 0
  | x :: xs, a => if x = a then 0 else listIdx xs a + 1

theorem listIdx_cons {α : Type} [DecidableEq α] (x : α) (xs : List α) (a : α) :
    listIdx (x :: xs) a = if x = a then 0 else listIdx xs a + 1 := rfl

theorem listIdx_lt_of_mem_take {α : Type} [DecidableEq α] :
    ∀ (l : List α) (m : Nat) (a : α), a ∈ l.take m → listIdx l a < m := by
  intro l
  induction l with
  | nil => intro m a h; simp at h
  | cons x xs ih =>
    intro m a h
    match m with
    | 0 => simp at h
    | m + 1 =>
      rw [List.take_succ_cons] at h
      by_cases hxa : x = a
      · simp [listIdx_cons, hxa]
      · rcases List.mem_cons.1 h with h1 | h1
        · exact absurd h1.symm hxa
        · have := ih m a h1
          simp only [listIdx_cons, hxa, if_false]
          omega

theorem mem_take_listIdx_succ {α : Type} [DecidableEq α] :
    ∀ (l : List α) (a : α), a ∈ l → a ∈ l.take (listIdx l a + 1) := by
  intro l
  induction l with
  | nil => intro a h; simp at h
  | cons x xs ih =>
    intro a h
    by_cases hxa : x = a
    · simp [listIdx_cons, hxa]
    · rcases List.mem_cons.1 h with h1 | h1
      · exact absurd h1.symm hxa
      · simp only [listIdx_cons, hxa, if_false, List.take_succ_cons]
        exact List.mem_cons_of_mem _ (ih a h1)

theorem listIdx_inj {α : Type} [DecidableEq α] :
    ∀ (l : List α) (a b : α), a ∈ l → b ∈ l → listIdx l a = listIdx l b → a = b := by
  intro l
  induction l with
  | nil => intro a b h; simp at h
  | cons x xs ih =>
    intro a b ha hb heq
    by_cases hxa : x = a <;> by_cases hxb : x = b
    · rw [← hxa, ← hxb]
    · rw [listIdx_cons, listIdx_cons, if_pos hxa, if_neg hxb] at heq
      omega
    · rw [listIdx_cons, listIdx_cons, if_neg hxa, if_pos hxb] at heq
      omega
    · rw [listIdx_cons, listIdx_cons, if_neg hxa, if_neg hxb] at heq
      have ha' : a ∈ xs := by
        rcases List.mem_cons.1 ha with h1 | h1
        · exact absurd h1.symm hxa
        · exact h1
      have hb' : b ∈ xs := by
        rcases List.mem_cons.1 hb with h1 | h1
        · exact absurd h1.symm hxb
        · exact h1
      exact ih a b ha' hb' (by omega)

namespace Graph

variable {V : Type} [DecidableEq V]

/-- From prefix-closure to index ordering: a successor of a listed node is
listed strictly earlier. -/
theorem blockOK_listIdx (G : Graph V) {l : List V}
    (hcl : ∀ q, q <+: l → ∀ w ∈ q, ∀ u, G.EdgeRel w u → u ∈ q)
    {w u : V} (hw : w ∈ l) (hR : G.EdgeRel w u) (hne : u ≠ w) :
    u ∈ l ∧ listIdx l u < listIdx l w := by
  have hu : u ∈ l := hcl l (List.prefix_refl _) w hw u hR
  have hpre : l.take (listIdx l w + 1) <+: l :=
    ⟨l.drop (listIdx l w + 1), List.take_append_drop _ _⟩
  have hwp : w ∈ l.take (listIdx l w + 1) := mem_take_listIdx_succ l w hw
  have hup : u ∈ l.take (listIdx l w + 1) := hcl _ hpre w hwp u hR
  have h1 : listIdx l u < listIdx l w + 1 := listIdx_lt_of_mem_take l _ u hup
  have h2 : listIdx l u ≠ listIdx l w := fun h => hne (listIdx_inj l u w hu hw h)
  exact ⟨hu, by omega⟩

/-- From prefix-closure to transitive ordering: everything a listed node
depends on (transitively) is listed strictly earlier. -/
theorem depends_listIdx (G : Graph V) (hacy : G.Acyclic) {l : List V}
    (hcl : ∀ q, q <+: l → ∀ w ∈ q, ∀ u, G.EdgeRel w u → u ∈ q)
    {a b : V} (ha : a ∈ l) (hd : G.Depends a b) :
    b ∈ l ∧ listIdx l b < listIdx l a := by
  induction hd with
  | single h =>
    refine G.blockOK_listIdx hcl ha h ?_
    intro he
    exact (G.acyclic_no_self hacy a) (he ▸ h)
  | tail _ hbc ih =>
    rename_i c b' _
    obtain ⟨hc, hlt⟩ := ih
    have hne : b' ≠ c := by
      intro he
      exact (G.acyclic_no_self hacy c) (he ▸ hbc)
    obtain ⟨hb, hlt2⟩ := G.blockOK_listIdx hcl hc hbc hne
    exact ⟨hb, by omega⟩

end Graph

/-! ## The traversal graph of `traverse_build_commands`

When start nodes are given, the Python adds the plain string
`"Starting Node"` as a virtual root to a **copy** of the graph and walks
from it, so the vertex type mixes strings and dependency nodes. -/

/-- A vertex of the graph walked by `traverse_build_commands`: either a
genuine `DependencyNode` or the virtual start-node string. -/
inductive PyObj where
  | ostr (s : String)
  | onode (n : DependencyNode)
deriving DecidableEq

/-- The `false_start_node = "Starting Node"` of line 72. -/
def vstartNode : PyObj := PyObj.ostr "Starting Node"

/-- `isinstance(current, DependencyNode)`. -/
def isDepNode : PyObj → Bool
  | PyObj.ostr _ => false
  | PyObj.onode _ => true

/-- The working graph (lines 73-76): a copy of the tree with the virtual
start node and one edge from it to each starting node. -/
def traverseGraph (G : Graph PyObj) (starts : List PyObj) : Graph PyObj :=
  starts.foldl (fun g s => g.addEdge vstartNode s) (G.addNode vstartNode)

/-- The yield filter of lines 80-86 with `return_node=True`: only
`DependencyNode`s whose build command is present are yielded. -/
def extractNode : PyObj → Option DependencyNode
  | PyObj.ostr _ => none
  | PyObj.onode n => if n.build_command.isSome then some n else none

/-- Embeds a complete run of `traverse_build_commands(build_tree,
starting_nodes, return_node=True)` (lines 67-86): the yielded node sequence
together with the graph the caller's `build_tree` binding refers to after
the call.  The virtual start node and its edges are added to
`build_tree.copy()`, so the caller's graph comes back unchanged; an empty
`starting_nodes` is falsy and selects the all-roots walk. -/
def traverseRun (G : Graph PyObj) (starts : List PyObj) :
    List DependencyNode × Graph PyObj :=
  if starts.isEmpty then ((G.dfsPostorderFrom G.nodes).filterMap extractNode, G)
  else (((traverseGraph G starts).dfsPostorderFrom [vstartNode]).filterMap extractNode, G)

/-- The yielded node sequence of `traverse_build_commands(..., return_node=True)`. -/
def traverseNodes (G : Graph PyObj) (starts : List PyObj) : List DependencyNode :=
  (traverseRun G starts).1

/-- The yielded build-command sequence of `traverse_build_commands`. -/
def traverseCommands (G : Graph PyObj) (starts : List PyObj) : List BuildCommand :=
  (traverseNodes G starts).filterMap DependencyNode.build_command

namespace Graph

variable {V : Type} [DecidableEq V]

theorem addNode_nodes_mem (G : Graph V) (v x : V) :
    x ∈ (G.addNode v).nodes ↔ x ∈ G.nodes ∨ x = v := by
  unfold addNode
  by_cases h : v ∈ G.nodes
  · simp only [h, if_true]
    constructor
    · exact Or.inl
    · rintro (hx | rfl)
      · exact hx
      · exact h
  · simp [h]

theorem addNode_edges (G : Graph V) (v : V) : (G.addNode v).edges = G.edges := by
  unfold addNode
  by_cases h : v ∈ G.nodes <;> simp [h]

theorem addEdge_nodes_mem (G : Graph V) (a b x : V) :
    x ∈ (G.addEdge a b).nodes ↔ x ∈ G.nodes ∨ x = a ∨ x = b := by
  unfold addEdge
  by_cases h : (a, b) ∈ ((G.addNode a).addNode b).edges <;>
    simp [h, addNode_nodes_mem, or_assoc]

theorem addEdge_edges_mem (G : Graph V) (a b : V) (e : V × V) :
    e ∈ (G.addEdge a b).edges ↔ e ∈ G.edges ∨ e = (a, b) := by
  unfold addEdge
  have hc : ((G.addNode a).addNode b).edges = G.edges := by
    rw [addNode_edges, addNode_edges]
  by_cases h : (a, b) ∈ G.edges
  · simp only [hc, h, if_true, hc]
    constructor
    · exact Or.inl
    · rintro (hx | rfl)
      · exact hx
      · exact h
  · simp only [hc, h, if_false]
    simp

theorem addNode_WF (G : Graph V) (v : V) (hwf : G.WF) : (G.addNode v).WF := by
  unfold addNode
  by_cases h : v ∈ G.nodes
  · simpa [h] using hwf
  · refine ⟨fun e he => ?_, ?_⟩
    · simp only [h, if_false] at he ⊢
      exact ⟨by simp [(hwf.1 e he).1], by simp [(hwf.1 e he).2]⟩
    · simp [h, List.nodup_append, hwf.2]

theorem addEdge_WF (G : Graph V) (a b : V) (hwf : G.WF) : (G.addEdge a b).WF := by
  have h2 := Graph.addNode_WF (G.addNode a) b (Graph.addNode_WF G a hwf)
  unfold addEdge
  by_cases h : (a, b) ∈ ((G.addNode a).addNode b).edges
  · simpa [h] using h2
  · simp only [h, if_false]
    refine ⟨fun e he => ?_, h2.2⟩
    rcases List.mem_append.1 he with he1 | he1
    · exact h2.1 e he1
    · have he2 : e = (a, b) := by simpa using he1
      subst he2
      constructor
      · rw [addNode_nodes_mem, addNode_nodes_mem]; tauto
      · rw [addNode_nodes_mem]; tauto

end Graph

theorem traverseGraph_aux_mem (ss : List PyObj) :
    ∀ g : Graph PyObj, vstartNode ∈ g.nodes →
      (∀ x, x ∈ (ss.foldl (fun g s => g.addEdge vstartNode s) g).nodes ↔
        x ∈ g.nodes ∨ x ∈ ss) ∧
      (∀ e, e ∈ (ss.foldl (fun g s => g.addEdge vstartNode s) g).edges ↔
        e ∈ g.edges ∨ (e.1 = vstartNode ∧ e.2 ∈ ss)) := by
  induction ss with
  | nil => intro g _; simp
  | cons s ss ih =>
    intro g hg
    have hg' : vstartNode ∈ (g.addEdge vstartNode s).nodes := by
      rw [Graph.addEdge_nodes_mem]; exact Or.inl hg
    obtain ⟨ihn, ihe⟩ := ih (g.addEdge vstartNode s) hg'
    constructor
    · intro x
      rw [List.foldl_cons, ihn x, Graph.addEdge_nodes_mem]
      simp only [List.mem_cons]
      constructor
      · rintro ((h | h | h) | h)
        · exact Or.inl h
        · subst h; exact Or.inl hg
        · exact Or.inr (Or.inl h)
        · exact Or.inr (Or.inr h)
      · rintro (h | h | h)
        · exact Or.inl (Or.inl h)
        · exact Or.inl (Or.inr (Or.inr h))
        · exact Or.inr h
    · intro e
      rw [List.foldl_cons, ihe e, Graph.addEdge_edges_mem]
      simp only [List.mem_cons]
      constructor
      · rintro ((h | h) | h)
        · exact Or.inl h
        · rw [h]; exact Or.inr ⟨rfl, Or.inl rfl⟩
        · exact Or.inr ⟨h.1, Or.inr h.2⟩
      · rintro (h | ⟨h1, h2 | h2⟩)
        · exact Or.inl (Or.inl h)
        · rw [← h1, ← h2] at *
          exact Or.inl (Or.inr (by rw [Prod.mk.eta]))
        · exact Or.inr ⟨h1, h2⟩

theorem traverseGraph_nodes_mem (G : Graph PyObj) (starts : List PyObj) (x : PyObj) :
    x ∈ (traverseGraph G starts).nodes ↔ x ∈ G.nodes ∨ x = vstartNode ∨ x ∈ starts := by
  have h := (traverseGraph_aux_mem starts (G.addNode vstartNode)
    (by rw [Graph.addNode_nodes_mem]; exact Or.inr rfl)).1 x
  unfold traverseGraph
  rw [h, Graph.addNode_nodes_mem]
  tauto

theorem traverseGraph_edges_mem (G : Graph PyObj) (starts : List PyObj) (e : PyObj × PyObj) :
    e ∈ (traverseGraph G starts).edges ↔
      e ∈ G.edges ∨ (e.1 = vstartNode ∧ e.2 ∈ starts) := by
  have h := (traverseGraph_aux_mem starts (G.addNode vstartNode)
    (by rw [Graph.addNode_nodes_mem]; exact Or.inr rfl)).2 e
  unfold traverseGraph
  rw [h, Graph.addNode_edges]

theorem traverseGraph_WF (G : Graph PyObj) (starts : List PyObj) (hwf : G.WF) :
    (traverseGraph G starts).WF := by
  unfold traverseGraph
  have h : ∀ (ss : List PyObj) (g : Graph PyObj), g.WF →
      (ss.foldl (fun g s => g.addEdge vstartNode s) g).WF := by
    intro ss
    induction ss with
    | nil => intro g hg; exact hg
    | cons s ss ih => intro g hg; exact ih _ (g.addEdge_WF _ _ hg)
  exact h starts _ (G.addNode_WF _ hwf)

theorem vstart_not_mem (G : Graph PyObj) (hdep : ∀ n ∈ G.nodes, isDepNode n = true) :
    vstartNode ∉ G.nodes := by
  intro h
  simpa [vstartNode, isDepNode] using hdep _ h

theorem tg_target_ne_vstart (G : Graph PyObj) (starts : List PyObj) (hwf : G.WF)
    (hdep : ∀ n ∈ G.nodes, isDepNode n = true) (hst : ∀ s ∈ starts, s ∈ G.nodes)
    {e : PyObj × PyObj} (he : e ∈ (traverseGraph G starts).edges) :
    e.2 ≠ vstartNode := by
  rcases (traverseGraph_edges_mem G starts e).1 he with h | ⟨_, h2⟩
  · intro hv
    exact vstart_not_mem G hdep (hv ▸ (hwf.1 e h).2)
  · intro hv
    exact vstart_not_mem G hdep (hst _ (hv ▸ h2))

theorem tg_edge_of_G {G : Graph PyObj} {starts : List PyObj} {x y : PyObj}
    (h : G.EdgeRel x y) : (traverseGraph G starts).EdgeRel x y :=
  (traverseGraph_edges_mem G starts (x, y)).2 (Or.inl h)

theorem tg_edge_elim {G : Graph PyObj} {starts : List PyObj} {x y : PyObj}
    (h : (traverseGraph G starts).EdgeRel x y) (hx : x ≠ vstartNode) :
    G.EdgeRel x y := by
  rcases (traverseGraph_edges_mem G starts (x, y)).1 h with h1 | ⟨h1, _⟩
  · exact h1
  · exact absurd h1 hx

theorem tg_reaches_to_G (G : Graph PyObj) (starts : List PyObj) (hwf : G.WF)
    (hdep : ∀ n ∈ G.nodes, isDepNode n = true) (hst : ∀ s ∈ starts, s ∈ G.nodes)
    {a b : PyObj} (h : (traverseGraph G starts).Reaches a b) (ha : a ≠ vstartNode) :
    G.Reaches a b := by
  refine Relation.ReflTransGen.head_induction_on
    (P := fun x _ => x ≠ vstartNode → G.Reaches x b) h ?_ ?_ ha
  · intro _
    exact Relation.ReflTransGen.refl
  · intro x c hxc hcb ih hx
    have hc : c ≠ vstartNode := tg_target_ne_vstart G starts hwf hdep hst hxc
    exact Relation.ReflTransGen.head (tg_edge_elim hxc hx) (ih hc)

theorem tg_acyclic (G : Graph PyObj) (starts : List PyObj) (hwf : G.WF)
    (hdep : ∀ n ∈ G.nodes, isDepNode n = true) (hst : ∀ s ∈ starts, s ∈ G.nodes)
    (hacy : G.Acyclic) : (traverseGraph G starts).Acyclic := by
  intro a b hedge hreach
  have hbv : b ≠ vstartNode := tg_target_ne_vstart G starts hwf hdep hst hedge
  by_cases hav : a = vstartNode
  · subst hav
    rcases Relation.ReflTransGen.cases_tail hreach with h | ⟨c, _, hc⟩
    · exact hbv h.symm
    · exact tg_target_ne_vstart G starts hwf hdep hst hc rfl
  · exact hacy a b (tg_edge_elim hedge hav)
      (tg_reaches_to_G G starts hwf hdep hst hreach hbv)

theorem extractNode_eq_some {x : PyObj} {n : DependencyNode} :
    extractNode x = some n ↔ x = PyObj.onode n ∧ n.build_command.isSome := by
  cases x with
  | ostr s => simp [extractNode]
  | onode m =>
    simp only [extractNode]
    by_cases h : m.build_command.isSome
    · rw [if_pos h]
      constructor
      · intro he
        have : m = n := by simpa using he
        subst this
        exact ⟨rfl, h⟩
      · rintro ⟨he, _⟩
        have : m = n := by simpa using he
        rw [this]
    · rw [if_neg h]
      constructor
      · intro he; simp at he
      · rintro ⟨he, h2⟩
        have : m = n := by simpa using he
        exact absurd (this ▸ h2) h

theorem mem_filterMap_extract {l : List PyObj} {n : DependencyNode} :
    n ∈ l.filterMap extractNode ↔ PyObj.onode n ∈ l ∧ n.build_command.isSome := by
  rw [List.mem_filterMap]
  constructor
  · rintro ⟨x, hx, hex⟩
    obtain ⟨rfl, h2⟩ := extractNode_eq_some.1 hex
    exact ⟨hx, h2⟩
  · rintro ⟨h1, h2⟩
    exact ⟨_, h1, extractNode_eq_some.2 ⟨rfl, h2⟩⟩

theorem filterMap_extract_listIdx {l : List PyObj} {a b : DependencyNode}
    (hb : b.build_command.isSome)
    (hlt : listIdx l (PyObj.onode b) < listIdx l (PyObj.onode a)) :
    listIdx (l.filterMap extractNode) b < listIdx (l.filterMap extractNode) a := by
  induction l with
  | nil => simpa [listIdx] using hlt
  | cons x xs ih =>
    by_cases hxb : x = PyObj.onode b
    · subst hxb
      have hne : PyObj.onode a ≠ PyObj.onode b := by
        intro he
        rw [listIdx_cons, listIdx_cons, if_pos rfl, if_pos he.symm] at hlt
        omega
      have hab : b ≠ a := fun h => hne (by rw [h])
      have hfm : (PyObj.onode b :: xs).filterMap extractNode =
          b :: xs.filterMap extractNode := by
        simp [List.filterMap_cons, extractNode, hb]
      rw [hfm, listIdx_cons, listIdx_cons, if_pos rfl, if_neg hab]
      omega
    · by_cases hxa : x = PyObj.onode a
      · exfalso
        rw [listIdx_cons, listIdx_cons, if_neg hxb, if_pos hxa] at hlt
        omega
      · have hlt' : listIdx xs (PyObj.onode b) < listIdx xs (PyObj.onode a) := by
          rw [listIdx_cons, if_neg hxb, listIdx_cons, if_neg hxa] at hlt
          omega
        cases hext : extractNode x with
        | none =>
          rw [List.filterMap_cons, hext]
          exact ih hlt'
        | some c =>
          have hc := extractNode_eq_some.1 hext
          have hca : c ≠ a := fun h => hxa (by rw [hc.1, h])
          have hcb : c ≠ b := fun h => hxb (by rw [hc.1, h])
          rw [List.filterMap_cons, hext, listIdx_cons, listIdx_cons,
            if_neg hca, if_neg hcb]
          have := ih hlt'
          omega

instance {V : Type} [DecidableEq V] (G : Graph V) : Decidable G.WF := by
  unfold Graph.WF
  infer_instance

/-! ## Concrete fixtures used by witnesses -/

def cmdA : BuildCommand :=
  ⟨"reca", "repoa", ["pa"], ["1"], ["pb"], [], [], [], [], [], none, none, none, none⟩

def cmdB : BuildCommand :=
  ⟨"recb", "repob", ["pb"], ["1"], [], [], [], [], [], [], none, none, none, none⟩

def nodeA : DependencyNode := ⟨{"pa"}, some cmdA, []⟩

def nodeB : DependencyNode := ⟨{"pb"}, some cmdB, []⟩

def Gw2 : Graph PyObj :=
  ⟨[PyObj.onode nodeA, PyObj.onode nodeB],
   [(PyObj.onode nodeA, PyObj.onode nodeB)]⟩

/-- C2: for every acyclic graph and every pair of nodes A, B with an edge
A→B (more generally with A transitively depending on B), the traversal
produced by `traverse_build_commands` yields B strictly before A — whether
the walk is seeded at given start nodes (via the synthesized virtual root)
or at all nodes — so every yielded node comes strictly after all yielded
nodes it depends on. -/
theorem C2_traverse_postorder
    (G : Graph PyObj) (starts : List PyObj)
    (hwf : G.WF) (hdep : ∀ n ∈ G.nodes, isDepNode n = true)
    (hst : ∀ s ∈ starts, s ∈ G.nodes) (hacy : G.Acyclic) :
    ∀ a b : DependencyNode,
      G.Depends (PyObj.onode a) (PyObj.onode b) →
      a ∈ traverseNodes G starts → b ∈ traverseNodes G starts →
      listIdx (traverseNodes G starts) b < listIdx (traverseNodes G starts) a := by
  intro a b hD ha hb
  by_cases hse : starts.isEmpty
  · have hTN : traverseNodes G starts =
        (G.dfsPostorderFrom G.nodes).filterMap extractNode := by
      simp [traverseNodes, traverseRun, hse]
    rw [hTN] at ha hb ⊢
    obtain ⟨hnd, hmem, hcl⟩ := G.dfsPostorderFrom_spec hwf hacy G.nodes (fun u hu => hu)
    have ha' := mem_filterMap_extract.1 ha
    have hb' := mem_filterMap_extract.1 hb
    have hord := G.depends_listIdx hacy hcl ha'.1 hD
    exact filterMap_extract_listIdx hb'.2 hord.2
  · have hTN : traverseNodes G starts =
        ((traverseGraph G starts).dfsPostorderFrom [vstartNode]).filterMap
          extractNode := by
      simp [traverseNodes, traverseRun, hse]
    rw [hTN] at ha hb ⊢
    have hwf' : (traverseGraph G starts).WF := traverseGraph_WF G starts hwf
    have hacy' : (traverseGraph G starts).Acyclic :=
      tg_acyclic G starts hwf hdep hst hacy
    have hroots : ∀ u ∈ [vstartNode], u ∈ (traverseGraph G starts).nodes := by
      intro u hu
      have hu' : u = vstartNode := by simpa using hu
      rw [hu', traverseGraph_nodes_mem]
      exact Or.inr (Or.inl rfl)
    obtain ⟨hnd, hmem, hcl⟩ :=
      (traverseGraph G starts).dfsPostorderFrom_spec hwf' hacy' [vstartNode] hroots
    have ha' := mem_filterMap_extract.1 ha
    have hb' := mem_filterMap_extract.1 hb
    have hD' : (traverseGraph G starts).Depends (PyObj.onode a) (PyObj.onode b) :=
      Relation.TransGen.mono (fun _ _ h => tg_edge_of_G h) hD
    have hord := (traverseGraph G starts).depends_listIdx hacy' hcl ha'.1 hD'
    exact filterMap_extract_listIdx hb'.2 hord.2

theorem C2_traverse_postorder_witness :
    listIdx (traverseNodes Gw2 [PyObj.onode nodeA]) nodeB <
      listIdx (traverseNodes Gw2 [PyObj.onode nodeA]) nodeA :=
  C2_traverse_postorder Gw2 [PyObj.onode nodeA] (by decide) (by decide) (by decide)
    (by decide) nodeA nodeB (Relation.TransGen.single (by decide)) (by decide)
    (by decide)

/-- C9: a complete run of `traverse_build_commands` leaves the caller's
graph unchanged — its node and edge sets are identical before and after —
because the virtual start node and its edges are added to a copy: the
working graph does contain the virtual start node, which is never a node of
the caller's graph. -/
theorem C9_traverse_frame
    (G : Graph PyObj) (starts : List PyObj)
    (hne : starts ≠ []) (hdep : ∀ n ∈ G.nodes, isDepNode n = true) :
    (traverseRun G starts).2.nodes = G.nodes ∧
    (traverseRun G starts).2.edges = G.edges ∧
    vstartNode ∈ (traverseGraph G starts).nodes ∧ vstartNode ∉ G.nodes := by
  have h2 : (traverseRun G starts).2 = G := by
    unfold traverseRun
    by_cases hse : starts.isEmpty <;> simp [hse]
  refine ⟨by rw [h2], by rw [h2], ?_, vstart_not_mem G hdep⟩
  rw [traverseGraph_nodes_mem]
  exact Or.inr (Or.inl rfl)

theorem C9_traverse_frame_witness :
    (traverseRun Gw2 [PyObj.onode nodeA]).2.nodes = Gw2.nodes ∧
    (traverseRun Gw2 [PyObj.onode nodeA]).2.edges = Gw2.edges ∧
    vstartNode ∈ (traverseGraph Gw2 [PyObj.onode nodeA]).nodes ∧
    vstartNode ∉ Gw2.nodes :=
  C9_traverse_frame Gw2 [PyObj.onode nodeA] (by decide) (by decide)

/-! ## Claims about node identity and hashing -/

/-- C4: for nodes that both carry a build command, `__eq__` compares exactly
the build commands; for every pair where at least one node lacks a build
command, `__eq__` compares exactly the package sets. -/
theorem C4_node_equality (a b : DependencyNode) :
    (a.build_command.isSome → b.build_command.isSome →
      (pyEq a b = true ↔ a.build_command = b.build_command)) ∧
    ((a.build_command = none ∨ b.build_command = none) →
      (pyEq a b = true ↔ a.packages = b.packages)) := by
  constructor
  · intro ha hb
    obtain ⟨ca, hca⟩ := Option.isSome_iff_exists.1 ha
    obtain ⟨cb, hcb⟩ := Option.isSome_iff_exists.1 hb
    simp [pyEq, hca, hcb]
  · intro h
    rcases h with h | h
    · cases hb : b.build_command <;> simp [pyEq, h, hb]
    · cases ha : a.build_command <;> simp [pyEq, h, ha]

theorem C4_node_equality_witness :
    (pyEq nodeA nodeA = true ↔ nodeA.build_command = nodeA.build_command) ∧
    (pyEq (mkExternal "x") nodeA = true ↔
      (mkExternal "x").packages = nodeA.packages) :=
  ⟨(C4_node_equality nodeA nodeA).1 (by decide) (by decide),
   (C4_node_equality (mkExternal "x") nodeA).2 (Or.inl (by decide))⟩

/-- C5: the stored hash of a dependency node is stable for its whole
lifetime — no later field assignment (packages, channels, even the build
command itself) changes it — and it is derived from the build command the
node was constructed with; for external nodes (no build command) the hash
is determined by the package identity: equal packages give equal hashes. -/
theorem C5_hash_stable (h : Option BuildCommand → Int) (p : Finset String)
    (bc : Option BuildCommand) (ch : Option (List String)) :
    (∀ p2, nodeHash (setPackages (initDependencyNode h p bc ch) p2) =
      nodeHash (initDependencyNode h p bc ch)) ∧
    (∀ cs2, nodeHash (setChannels (initDependencyNode h p bc ch) cs2) =
      nodeHash (initDependencyNode h p bc ch)) ∧
    (∀ bc2, nodeHash (setBuildCommand (initDependencyNode h p bc ch) bc2) =
      nodeHash (initDependencyNode h p bc ch)) ∧
    nodeHash (initDependencyNode h p bc ch) = h bc ∧
    (∀ p1 p2 ch1 ch2, p1 = p2 →
      nodeHash (initDependencyNode h p1 none ch1) =
        nodeHash (initDependencyNode h p2 none ch2)) :=
  ⟨fun _ => rfl, fun _ => rfl, fun _ => rfl, rfl, fun _ _ _ _ _ => rfl⟩

theorem C5_hash_stable_witness :
    nodeHash (initDependencyNode (fun _ => (0 : Int)) {"pa"} (some cmdA) none) =
      (fun _ => (0 : Int)) (some cmdA) ∧
    nodeHash (initDependencyNode (fun _ => (0 : Int)) {"x"} none none) =
      nodeHash (initDependencyNode (fun _ => (0 : Int)) {"x"} none (some ["c"])) :=
  ⟨(C5_hash_stable (fun _ => (0 : Int)) {"pa"} (some cmdA) none).2.2.2.1,
   (C5_hash_stable (fun _ => (0 : Int)) {"pa"} (some cmdA) none).2.2.2.2
     {"x"} {"x"} none (some ["c"]) rfl⟩

/-! ## The installable-set merge claim -/

/-- C8: for the input dependency set `{"pkgA", "pkgA >=2.0", "pkgB"}` (in
any iteration order) the merge rule produces exactly
`{"pkgA >=2.0", "pkgB"}`; and the rule's cases behave as claimed: an exact
duplicate is skipped, a qualified entry replaces an already-present
unqualified entry with the same base name, an entry whose base name is
already represented is skipped, and otherwise the entry is added. -/
theorem C8_merge_rule :
    (∀ l : List String, l.Perm ["pkgA", "pkgA >=2.0", "pkgB"] →
      mergeDeps l = {"pkgA >=2.0", "pkgB"}) ∧
    (∀ (s : Finset String) (d : String), d ∈ s → addUniqueDep s d = s) ∧
    (∀ (s : Finset String) (d : String), d ∉ s → d ≠ "" → pyName d ∈ s →
      1 < (pySplit d).length →
      addUniqueDep s d = insert d (s.erase (pyName d))) ∧
    (∀ (s : Finset String) (d : String), d ∉ s →
      ¬(pyName d ∈ s ∧ 1 < (pySplit d).length) →
      (∃ e ∈ s, pyName e = pyName d) → addUniqueDep s d = s) ∧
    (∀ (s : Finset String) (d : String), d ∉ s → d ≠ "" →
      ¬(pyName d ∈ s ∧ 1 < (pySplit d).length) →
      (¬∃ e ∈ s, pyName e = pyName d) → addUniqueDep s d = insert d s) := by
  refine ⟨?_, ?_, ?_, ?_, ?_⟩
  · have key : ∀ l ∈ (["pkgA", "pkgA >=2.0", "pkgB"] : List String).permutations',
        mergeDeps l = {"pkgA >=2.0", "pkgB"} := by decide
    intro l hp
    exact key l (List.mem_permutations'.2 hp)
  · intro s d h
    have hck : checkMatching s d = (s, none) := by
      simp only [checkMatching]
      rw [if_pos h]
    unfold addUniqueDep
    rw [hck]
  · intro s d h1 h2 h3 h4
    have hck : checkMatching s d = (s.erase (pyName d), some d) := by
      simp only [checkMatching]
      rw [if_neg h1, if_pos (And.intro h3 h4)]
    unfold addUniqueDep
    rw [hck]
    exact if_neg h2
  · intro s d h1 h2 h3
    have hck : checkMatching s d = (s, none) := by
      simp only [checkMatching]
      rw [if_neg h1, if_neg h2, if_pos h3]
    unfold addUniqueDep
    rw [hck]
  · intro s d h1 h2 h3 h4
    have hck : checkMatching s d = (s, some d) := by
      simp only [checkMatching]
      rw [if_neg h1, if_neg h3, if_neg h4]
    unfold addUniqueDep
    rw [hck]
    exact if_neg h2

theorem C8_merge_rule_witness :
    mergeDeps ["pkgA", "pkgA >=2.0", "pkgB"] = {"pkgA >=2.0", "pkgB"} ∧
    mergeDeps ["pkgB", "pkgA >=2.0", "pkgA"] = {"pkgA >=2.0", "pkgB"} :=
  ⟨C8_merge_rule.1 _ (List.Perm.refl _),
   C8_merge_rule.1 _ (by decide)⟩

/-! ## The length claim -/

/-- Embeds `BuildTree.__len__` (lines 439-440): the size of the set of
nodes whose build command is present. -/
def buildTreeLen (G : Graph DependencyNode) : Nat :=
  ((G.nodes.filter fun x => x.build_command.isSome).dedup).length

theorem filter_length_lt {α : Type} (p : α → Bool) :
    ∀ (l : List α) (a : α), a ∈ l → p a = false → (l.filter p).length < l.length := by
  intro l
  induction l with
  | nil => intro a h; simp at h
  | cons x xs ih =>
    intro a ha hpa
    rcases List.mem_cons.1 ha with rfl | ha1
    · have hfe : (a :: xs).filter p = xs.filter p := by
        simp [List.filter_cons, hpa]
      rw [hfe]
      exact Nat.lt_succ_of_le (List.length_filter_le _ _)
    · have hlt := ih a ha1 hpa
      cases hpx : p x
      · have hfe : (x :: xs).filter p = xs.filter p := by
          simp [List.filter_cons, hpx]
        rw [hfe]
        exact Nat.lt_succ_of_lt hlt
      · have hfe : (x :: xs).filter p = x :: xs.filter p := by
          simp [List.filter_cons, hpx]
        rw [hfe, List.length_cons, List.length_cons]
        omega

theorem C10_len (G : Graph DependencyNode) (hwf : G.WF) :
    buildTreeLen G = (G.nodes.filter fun x => x.build_command.isSome).length ∧
    ((∃ n ∈ G.nodes, n.build_command = none) → buildTreeLen G < G.nodes.length) := by
  have hnd : (G.nodes.filter fun x => x.build_command.isSome).Nodup :=
    hwf.2.filter _
  have h1 : buildTreeLen G =
      (G.nodes.filter fun x => x.build_command.isSome).length := by
    unfold buildTreeLen
    rw [List.Nodup.dedup hnd]
  refine ⟨h1, ?_⟩
  rintro ⟨n, hn, hbc⟩
  rw [h1]
  exact filter_length_lt _ G.nodes n hn (by simp [hbc])

def GwLen : Graph DependencyNode := ⟨[nodeA, mkExternal "x"], []⟩

/-- C10 doc note: on `GwLen` the length is the buildable count 1, strictly
below the total node count 2. -/
theorem C10_len_witness :
    buildTreeLen GwLen = (GwLen.nodes.filter fun x => x.build_command.isSome).length ∧
    buildTreeLen GwLen < GwLen.nodes.length :=
  ⟨(C10_len GwLen (by decide)).1,
   (C10_len GwLen (by decide)).2 ⟨mkExternal "x", by decide, rfl⟩⟩

/-! ## Cycle detection (`BuildTree._detect_cycle`)

`networkx.simple_cycles` is embedded as the (finite) enumeration of all
duplicate-free nonempty node lists that form a closed chain of edges. -/

namespace Graph

variable {V : Type} [DecidableEq V]

/-- Consecutive members are edges. -/
def chainB (G : Graph V) : List V → Bool
  | [] => true
  | [_] => true
  | a :: b :: t => decide ((a, b) ∈ G.edges) && G.chainB (b :: t)

/-- A simple cycle: a nonempty, duplicate-free list of graph nodes forming
a chain of edges whose last member has an edge back to the first. -/
def isCycleListB (G : Graph V) (l : List V) : Bool :=
  match l with
  | [] => false
  | a :: t =>
    decide ((a :: t).Nodup) && (a :: t).all (fun x => decide (x ∈ G.nodes)) &&
      G.chainB (a :: t) && decide (((a :: t).getLastD a, a) ∈ G.edges)

def IsSimpleCycle (G : Graph V) (l : List V) : Prop := G.isCycleListB l = true

/-- The enumeration of all simple cycles (every cyclic arrangement of every
node subset that passes the cycle test). -/
def simpleCycles (G : Graph V) : List (List V) :=
  ((G.nodes.dedup.sublists.map List.permutations').flatten).filter G.isCycleListB

theorem isCycle_parts (G : Graph V) {c : List V} (h : G.IsSimpleCycle c) :
    c ≠ [] ∧ c.Nodup ∧ ∀ x ∈ c, x ∈ G.nodes := by
  unfold IsSimpleCycle isCycleListB at h
  cases c with
  | nil => simp at h
  | cons a t =>
    simp only [Bool.and_eq_true, decide_eq_true_eq, List.all_eq_true] at h
    refine ⟨by simp, h.1.1.1, fun x hx => ?_⟩
    have := h.1.1.2 x hx
    simpa using this

/-- Soundness and completeness of the cycle enumeration. -/
theorem mem_simpleCycles (G : Graph V) (c : List V) :
    c ∈ G.simpleCycles ↔ G.IsSimpleCycle c := by
  constructor
  · intro h
    exact (List.mem_filter.1 h).2
  · intro h
    refine List.mem_filter.2 ⟨?_, h⟩
    obtain ⟨_, hnd, hmem⟩ := G.isCycle_parts h
    have hsub : List.Subperm c G.nodes.dedup :=
      List.Nodup.subperm hnd (fun x hx => List.mem_dedup.2 (hmem x hx))
    obtain ⟨s, hs1, hs2⟩ := hsub
    refine List.mem_flatten.2 ⟨List.permutations' s,
      List.mem_map.2 ⟨s, List.mem_sublists.2 hs2, rfl⟩, ?_⟩
    exact List.mem_permutations'.2 hs1.symm

end Graph

/-- A deterministic list of the members of a finite set of strings (sorted;
insertion sort is structurally recursive, so concrete runs reduce inside
the kernel). -/
def finsetList (p : Finset String) : List String :=
  Quot.liftOn p.val (fun l => l.insertionSort (· ≤ ·)) fun l1 l2 h =>
    List.eq_of_perm_of_sorted
      ((List.perm_insertionSort _ l1).trans
        (h.trans (List.perm_insertionSort _ l2).symm))
      (List.sorted_insertionSort _ l1) (List.sorted_insertionSort _ l2)

/-- `str(node.packages)` for an external node: some deterministic rendering
of the package set (the exact Python `set` repr is irrelevant to the claims). -/
def pkgSetString (p : Finset String) : String :=
  String.intercalate ", " (finsetList p)

/-- `node.build_command.recipe if node.build_command else str(node.packages)`
(line 475). -/
def renderNode (n : DependencyNode) : String :=
  match n.build_command with
  | some c => c.recipe
  | none => pkgSetString n.packages

/-- One line of the cycle report (lines 475-476): the cycle as an ordered
chain closing back to its start (`cycle + [cycle[0]]`), joined by `" -> "`,
plus a newline. -/
def renderCycle (c : List DependencyNode) : String :=
  String.intercalate " -> " ((c ++ c.take 1).map renderNode) ++ "\n"

/-- The accumulated `cycle_print` (`+=` starting from `""`). -/
def concatAll (l : List String) : String := l.foldl (fun a b => a ++ b) ""

/-- Embeds `BuildTree._detect_cycle` (lines 469-478): render every simple
cycle containing a node with a build command, concatenate all renderings,
and fail (return the report) iff the accumulated string is non-empty. -/
def detectCycle (G : Graph DependencyNode) : Option String :=
  let cyclePrint := concatAll ((G.simpleCycles.filter
    (fun c => c.any (fun n => n.build_command.isSome))).map renderCycle)
  if cyclePrint = "" then none else some cyclePrint

theorem foldl_append_length : ∀ (l : List String) (init : String),
    (l.foldl (fun a b => a ++ b) init).length =
      init.length + (l.map String.length).sum := by
  intro l
  induction l with
  | nil => intro init; simp
  | cons a t ih =>
    intro init
    rw [List.foldl_cons, ih, String.length_append]
    simp only [List.map_cons, List.sum_cons]
    omega

theorem renderCycle_length (c : List DependencyNode) : 1 ≤ (renderCycle c).length := by
  unfold renderCycle
  rw [String.length_append]
  have h1 : ("\n" : String).length = 1 := rfl
  omega

theorem concat_render_ne_empty {L : List (List DependencyNode)} (h : L ≠ []) :
    concatAll (L.map renderCycle) ≠ "" := by
  intro hc
  have hlen : (concatAll (L.map renderCycle)).length = 0 := by rw [hc]; rfl
  unfold concatAll at hlen
  rw [foldl_append_length] at hlen
  cases L with
  | nil => exact h rfl
  | cons c t =>
    simp only [List.map_cons, List.map_map, List.sum_cons] at hlen
    have := renderCycle_length c
    simp at hlen
    omega

/-- C3: cycle detection fails iff some simple cycle of the graph contains a
node with a present build command (so cycles made only of external nodes
are tolerated without error); each fatal cycle is rendered as an ordered
chain (recipe names for buildable members, package-set strings for external
members, via `renderNode`) closing back to its start, and the report is the
concatenation of all fatal cycles. -/
theorem C3_detect_cycle (G : Graph DependencyNode) :
    ((detectCycle G).isSome ↔
      ∃ l, G.IsSimpleCycle l ∧ ∃ v ∈ l, v.build_command.isSome) ∧
    (∀ l, renderCycle l =
      String.intercalate " -> " ((l ++ l.take 1).map renderNode) ++ "\n") ∧
    detectCycle G = (if (G.simpleCycles.filter
        (fun c => c.any (fun n => n.build_command.isSome))) = [] then none
      else some (concatAll ((G.simpleCycles.filter
        (fun c => c.any (fun n => n.build_command.isSome))).map renderCycle))) := by
  have hiff2 : concatAll ((G.simpleCycles.filter
      (fun c => c.any (fun n => n.build_command.isSome))).map renderCycle) = "" ↔
      (G.simpleCycles.filter (fun c => c.any (fun n => n.build_command.isSome))) = [] := by
    constructor
    · intro h
      by_contra hne
      exact concat_render_ne_empty hne h
    · intro h
      rw [h]
      rfl
  refine ⟨?_, fun l => rfl, ?_⟩
  · unfold detectCycle
    by_cases hemp : concatAll ((G.simpleCycles.filter
        (fun c => c.any (fun n => n.build_command.isSome))).map renderCycle) = ""
    · rw [if_pos hemp]
      simp only [Option.isSome_none, Bool.false_eq_true, false_iff]
      rintro ⟨l, hl, v, hv, hvb⟩
      have hmem : l ∈ G.simpleCycles.filter
          (fun c => c.any (fun n => n.build_command.isSome)) :=
        List.mem_filter.2 ⟨(G.mem_simpleCycles l).2 hl,
          List.any_eq_true.2 ⟨v, hv, hvb⟩⟩
      rw [hiff2.1 hemp] at hmem
      simp at hmem
    · rw [if_neg hemp]
      simp only [Option.isSome_some, true_iff]
      have hne : (G.simpleCycles.filter
          (fun c => c.any (fun n => n.build_command.isSome))) ≠ [] := by
        intro h
        exact hemp (hiff2.2 h)
      obtain ⟨c, hc⟩ := List.exists_mem_of_ne_nil _ hne
      obtain ⟨hc1, hc2⟩ := List.mem_filter.1 hc
      obtain ⟨v, hv, hvb⟩ := List.any_eq_true.1 hc2
      exact ⟨c, (G.mem_simpleCycles c).1 hc1, v, hv, hvb⟩
  · unfold detectCycle
    by_cases hemp : concatAll ((G.simpleCycles.filter
        (fun c => c.any (fun n => n.build_command.isSome))).map renderCycle) = ""
    · rw [if_pos hemp, if_pos (hiff2.1 hemp)]
    · rw [if_neg hemp, if_neg (fun h => hemp (hiff2.2 h))]

/-! ## The local edge linker (`_create_edges`) -/

namespace Graph

variable {V : Type} [DecidableEq V]

/-- Inclusion of graphs (nodes and edges). -/
def SubG (g1 g2 : Graph V) : Prop :=
  (∀ x ∈ g1.nodes, x ∈ g2.nodes) ∧ (∀ e ∈ g1.edges, e ∈ g2.edges)

theorem SubG.rfl (g : Graph V) : SubG g g := ⟨fun _ h => h, fun _ h => h⟩

theorem SubG.trans {g1 g2 g3 : Graph V} (h1 : SubG g1 g2) (h2 : SubG g2 g3) :
    SubG g1 g3 :=
  ⟨fun x hx => h2.1 x (h1.1 x hx), fun e he => h2.2 e (h1.2 e he)⟩

theorem SubG.addNode (g : Graph V) (v : V) : SubG g (g.addNode v) :=
  ⟨fun x hx => (g.addNode_nodes_mem v x).2 (Or.inl hx),
   fun e he => by rw [g.addNode_edges v]; exact he⟩

theorem SubG.addEdge (g : Graph V) (a b : V) : SubG g (g.addEdge a b) :=
  ⟨fun x hx => (g.addEdge_nodes_mem a b x).2 (Or.inl hx),
   fun e he => (g.addEdge_edges_mem a b e).2 (Or.inl he)⟩

end Graph

/-- Does node `m` satisfy dependency string `dep`?  Line 518-520:
`utils.remove_version(dependency) in map(utils.remove_version,
dest_node.packages)`. -/
def matchesDep (dep : String) (m : DependencyNode) : Bool :=
  decide (removeVersion dep ∈ m.packages.image removeVersion)

/-- Linking one dependency of one buildable node (lines 517-528): search
the **live** node set for a node whose package set contains the
qualifier-stripped name; when found and distinct (under `__eq__`) from the
source, add an edge source→match; when absent, create an external node
holding exactly this one dependency string and add an edge to it.
(`local_dest.pop()` picks an arbitrary member; the embedding picks the
first in node order.) -/
def linkDep (tree : Graph DependencyNode) (node : DependencyNode) (dep : String) :
    Graph DependencyNode :=
  match (tree.nodes.filter (matchesDep dep)).head? with
  | some d => if pyEq node d then tree else tree.addEdge node d
  | none => (tree.addNode (mkExternal dep)).addEdge node (mkExternal dep)

/-- Processing one snapshot node (lines 515-528): external nodes are
skipped, buildable nodes link every aggregate dependency. -/
def linkNode (tree : Graph DependencyNode) (node : DependencyNode) :
    Graph DependencyNode :=
  match node.build_command with
  | none => tree
  | some cmd => cmd.getAllDependencies.foldl (fun t d => linkDep t node d) tree

/-- Embeds `_create_edges` (lines 513-529): iterate over a snapshot
(`set(tree.nodes())`) of the node set, linking each buildable node's
dependencies against the live node set. -/
def createEdges (tree : Graph DependencyNode) : Graph DependencyNode :=
  tree.nodes.foldl linkNode tree

/-- Follows the claim's words, for comparison with `_create_edges`: the
dependency search runs over the snapshot of the node set taken before
linking begins instead of the live node set. -/
def linkDepSnap (snap : List DependencyNode) (tree : Graph DependencyNode)
    (node : DependencyNode) (dep : String) : Graph DependencyNode :=
  match (snap.filter (matchesDep dep)).head? with
  | some d => if pyEq node d then tree else tree.addEdge node d
  | none => (tree.addNode (mkExternal dep)).addEdge node (mkExternal dep)

/-- The claim's version of `_create_edges`: identical except that the
search set is the pre-linking snapshot. -/
def createEdgesClaim (tree : Graph DependencyNode) : Graph DependencyNode :=
  tree.nodes.foldl (fun t node =>
    match node.build_command with
    | none => t
    | some cmd => cmd.getAllDependencies.foldl
        (fun t2 d => linkDepSnap tree.nodes t2 node d) t) tree

def cmdCE : BuildCommand :=
  ⟨"recce", "repoce", ["bar"], ["1"], ["foo >=1.0", "foo"], [], [], [], [], [],
   none, none, none, none⟩

def nodeCE : DependencyNode := ⟨{"bar"}, some cmdCE, []⟩

def GwCE : Graph DependencyNode := ⟨[nodeCE], []⟩

/-- C6 counterexample: on one buildable node requiring both `"foo >=1.0"`
and `"foo"`, the source's linker (live search) reuses the external node it
created for the first dependency, while the claim's linker (snapshot
search) creates a second external node `{foo}` — the two computations
disagree, so the search is not over a snapshot-stable node set. -/
theorem C6_counterexample :
    (createEdges GwCE).nodes.length = 2 ∧
    (createEdgesClaim GwCE).nodes.length = 3 ∧
    mkExternal "foo" ∉ (createEdges GwCE).nodes ∧
    mkExternal "foo" ∈ (createEdgesClaim GwCE).nodes ∧
    createEdges GwCE ≠ createEdgesClaim GwCE := by decide

theorem linkDep_subG (tree : Graph DependencyNode) (node : DependencyNode)
    (dep : String) : Graph.SubG tree (linkDep tree node dep) := by
  unfold linkDep
  cases hh : (tree.nodes.filter (matchesDep dep)).head? with
  | none =>
    exact Graph.SubG.trans (Graph.SubG.addNode tree (mkExternal dep))
      (Graph.SubG.addEdge (tree.addNode (mkExternal dep)) node (mkExternal dep))
  | some d =>
    by_cases hpe : pyEq node d
    · simp only [hpe, if_true]
      exact Graph.SubG.rfl tree
    · simp only [hpe, if_false]
      exact Graph.SubG.addEdge tree node d

theorem linkDep_fold_subG (node : DependencyNode) :
    ∀ (ds : List String) (tree : Graph DependencyNode),
      Graph.SubG tree (ds.foldl (fun t d => linkDep t node d) tree) := by
  intro ds
  induction ds with
  | nil => intro tree; exact Graph.SubG.rfl tree
  | cons d ds ih =>
    intro tree
    exact (linkDep_subG tree node d).trans (ih (linkDep tree node d))

theorem linkNode_subG (tree : Graph DependencyNode) (node : DependencyNode) :
    Graph.SubG tree (linkNode tree node) := by
  unfold linkNode
  cases node.build_command with
  | none => exact Graph.SubG.rfl tree
  | some cmd => exact linkDep_fold_subG node cmd.getAllDependencies tree

theorem linkNode_fold_subG :
    ∀ (l : List DependencyNode) (tree : Graph DependencyNode),
      Graph.SubG tree (l.foldl linkNode tree) := by
  intro l
  induction l with
  | nil => intro tree; exact Graph.SubG.rfl tree
  | cons n l ih =>
    intro tree
    exact (linkNode_subG tree n).trans (ih (linkNode tree n))

/-- The per-dependency postcondition: some node of `g` matching `d` is the
source node itself (under `__eq__`) or an edge target of it. -/
def LinkedOK (g : Graph DependencyNode) (n : DependencyNode) (d : String) : Prop :=
  ∃ m ∈ g.nodes, matchesDep d m = true ∧ (pyEq n m = true ∨ (n, m) ∈ g.edges)

theorem LinkedOK.mono {g1 g2 : Graph DependencyNode} {n : DependencyNode}
    {d : String} (hs : Graph.SubG g1 g2) (h : LinkedOK g1 n d) :
    LinkedOK g2 n d := by
  obtain ⟨m, hm, hmatch, hor⟩ := h
  exact ⟨m, hs.1 m hm, hmatch, hor.imp id (fun he => hs.2 _ he)⟩

theorem linkDep_establishes (tree : Graph DependencyNode) (node : DependencyNode)
    (dep : String) : LinkedOK (linkDep tree node dep) node dep := by
  unfold linkDep
  cases hh : (tree.nodes.filter (matchesDep dep)).head? with
  | none =>
    refine ⟨mkExternal dep, ?_, ?_, Or.inr ?_⟩
    · refine (Graph.addEdge_nodes_mem _ node (mkExternal dep) _).2 (Or.inl ?_)
      exact (Graph.addNode_nodes_mem tree (mkExternal dep) _).2 (Or.inr rfl)
    · simp [matchesDep, mkExternal]
    · exact (Graph.addEdge_edges_mem _ node (mkExternal dep) _).2 (Or.inr rfl)
  | some d =>
    have hd := List.mem_filter.1 (List.mem_of_mem_head? hh)
    by_cases hpe : pyEq node d
    · simp only [hpe, if_true]
      exact ⟨d, hd.1, hd.2, Or.inl hpe⟩
    · simp only [hpe, if_false]
      refine ⟨d, (Graph.addEdge_nodes_mem tree node d d).2 (Or.inr (Or.inr rfl)),
        hd.2, Or.inr ?_⟩
      exact (Graph.addEdge_edges_mem tree node d _).2 (Or.inr rfl)

theorem linkDep_fold_establishes (node : DependencyNode) :
    ∀ (ds : List String) (tree : Graph DependencyNode), ∀ d ∈ ds,
      LinkedOK (ds.foldl (fun t d => linkDep t node d) tree) node d := by
  intro ds
  induction ds with
  | nil => intro tree d h; simp at h
  | cons d0 ds ih =>
    intro tree d hd
    rw [List.foldl_cons]
    rcases List.mem_cons.1 hd with rfl | hd1
    · exact LinkedOK.mono (linkDep_fold_subG node ds (linkDep tree node d))
        (linkDep_establishes tree node d)
    · exact ih (linkDep tree node d0) d hd1

theorem linkNode_fold_establishes :
    ∀ (l : List DependencyNode) (tree : Graph DependencyNode),
      ∀ n ∈ l, ∀ cmd, n.build_command = some cmd → ∀ d ∈ cmd.getAllDependencies,
        LinkedOK (l.foldl linkNode tree) n d := by
  intro l
  induction l with
  | nil => intro tree n h; simp at h
  | cons n0 l ih =>
    intro tree n hn cmd hcmd d hd
    rw [List.foldl_cons]
    rcases List.mem_cons.1 hn with rfl | hn1
    · have h1 : LinkedOK (linkNode tree n) n d := by
        unfold linkNode
        rw [hcmd]
        exact linkDep_fold_establishes n cmd.getAllDependencies tree d hd
      exact LinkedOK.mono (linkNode_fold_subG l (linkNode tree n)) h1
    · exact ih (linkNode tree n0) n hn1 cmd hcmd d hd

theorem linkDep_nodes_from (tree : Graph DependencyNode) (node : DependencyNode)
    (dep : String) (hn : node ∈ tree.nodes) :
    ∀ x ∈ (linkDep tree node dep).nodes, x ∈ tree.nodes ∨ x = mkExternal dep := by
  unfold linkDep
  cases hh : (tree.nodes.filter (matchesDep dep)).head? with
  | none =>
    intro x hx
    rcases (Graph.addEdge_nodes_mem _ node (mkExternal dep) x).1 hx with h | h | h
    · rcases (Graph.addNode_nodes_mem tree (mkExternal dep) x).1 h with h1 | h1
      · exact Or.inl h1
      · exact Or.inr h1
    · exact Or.inl (h ▸ hn)
    · exact Or.inr h
  | some d =>
    have hd := List.mem_filter.1 (List.mem_of_mem_head? hh)
    by_cases hpe : pyEq node d
    · simp only [hpe, if_true]
      exact fun x hx => Or.inl hx
    · simp only [hpe, if_false]
      intro x hx
      rcases (Graph.addEdge_nodes_mem tree node d x).1 hx with h | h | h
      · exact Or.inl h
      · exact Or.inl (h ▸ hn)
      · exact Or.inl (h ▸ hd.1)

theorem linkDep_fold_nodes_from (node : DependencyNode) :
    ∀ (ds : List String) (tree : Graph DependencyNode), node ∈ tree.nodes →
      ∀ x ∈ (ds.foldl (fun t d => linkDep t node d) tree).nodes,
        x ∈ tree.nodes ∨ ∃ d ∈ ds, x = mkExternal d := by
  intro ds
  induction ds with
  | nil => intro tree _ x hx; exact Or.inl hx
  | cons d0 ds ih =>
    intro tree hn x hx
    rw [List.foldl_cons] at hx
    have hn' : node ∈ (linkDep tree node d0).nodes := (linkDep_subG tree node d0).1 _ hn
    rcases ih (linkDep tree node d0) hn' x hx with h | ⟨d, hd, he⟩
    · rcases linkDep_nodes_from tree node d0 hn x h with h1 | h1
      · exact Or.inl h1
      · exact Or.inr ⟨d0, by simp, h1⟩
    · exact Or.inr ⟨d, by simp [hd], he⟩

theorem linkNode_nodes_from (tree : Graph DependencyNode) (n : DependencyNode)
    (hn : n ∈ tree.nodes) :
    ∀ x ∈ (linkNode tree n).nodes, x ∈ tree.nodes ∨
      ∃ cmd d, n.build_command = some cmd ∧ d ∈ cmd.getAllDependencies ∧
        x = mkExternal d := by
  unfold linkNode
  cases hbc : n.build_command with
  | none => exact fun x hx => Or.inl hx
  | some cmd =>
    intro x hx
    rcases linkDep_fold_nodes_from n cmd.getAllDependencies tree hn x hx with h | ⟨d, hd, he⟩
    · exact Or.inl h
    · exact Or.inr ⟨cmd, d, rfl, hd, he⟩

theorem linkNode_fold_nodes_from :
    ∀ (l : List DependencyNode) (tree : Graph DependencyNode),
      (∀ n ∈ l, n ∈ tree.nodes) →
      ∀ x ∈ (l.foldl linkNode tree).nodes, x ∈ tree.nodes ∨
        ∃ n ∈ l, ∃ cmd d, n.build_command = some cmd ∧
          d ∈ cmd.getAllDependencies ∧ x = mkExternal d := by
  intro l
  induction l with
  | nil => intro tree _ x hx; exact Or.inl hx
  | cons n0 l ih =>
    intro tree hl x hx
    rw [List.foldl_cons] at hx
    have hl' : ∀ n ∈ l, n ∈ (linkNode tree n0).nodes :=
      fun n h => (linkNode_subG tree n0).1 n (hl n (by simp [h]))
    rcases ih (linkNode tree n0) hl' x hx with h | ⟨n, hn, cmd, d, h1, h2, h3⟩
    · rcases linkNode_nodes_from tree n0 (hl n0 (by simp)) x h with h1 | ⟨cmd, d, h1, h2, h3⟩
      · exact Or.inl h1
      · exact Or.inr ⟨n0, by simp, cmd, d, h1, h2, h3⟩
    · exact Or.inr ⟨n, by simp [hn], cmd, d, h1, h2, h3⟩

/-- C6 (amended): the linker iterates over a snapshot of the node set but
searches the **live** node set (including external nodes created earlier in
the same pass).  For every buildable node and every aggregate dependency
string, the final graph contains a node matching the qualifier-stripped
name that either equals the source under `__eq__` or is an edge target of
it; and every node of the final graph is either an original node or an
external node holding exactly one dependency string of some buildable
node. -/
theorem C6_create_edges_amended (G : Graph DependencyNode) :
    (∀ n ∈ G.nodes, ∀ cmd, n.build_command = some cmd →
      ∀ d ∈ cmd.getAllDependencies,
        ∃ m ∈ (createEdges G).nodes, matchesDep d m = true ∧
          (pyEq n m = true ∨ (n, m) ∈ (createEdges G).edges)) ∧
    (∀ m ∈ (createEdges G).nodes, m ∈ G.nodes ∨
      ∃ n cmd d, n ∈ G.nodes ∧ n.build_command = some cmd ∧
        d ∈ cmd.getAllDependencies ∧ m = mkExternal d) := by
  constructor
  · intro n hn cmd hcmd d hd
    exact linkNode_fold_establishes G.nodes G n hn cmd hcmd d hd
  · intro m hm
    rcases linkNode_fold_nodes_from G.nodes G (fun n h => h) m hm with
      h | ⟨n, hn, cmd, d, h1, h2, h3⟩
    · exact Or.inl h
    · exact Or.inr ⟨n, cmd, d, hn, h1, h2, h3⟩

theorem C6_create_edges_amended_witness :
    ∃ m ∈ (createEdges GwCE).nodes, matchesDep "foo" m = true ∧
      (pyEq nodeCE m = true ∨ (nodeCE, m) ∈ (createEdges GwCE).edges) :=
  (C6_create_edges_amended GwCE).1 nodeCE (by decide) cmdCE (by decide) "foo"
    (by decide)

/-! ## The remote dependency resolver (`_create_remote_deps`)

The external package channel is an oracle `List String → String → Option
(List String)` (channel list and package string to the returned package's
dependency list; `none` models the empty result for a virtual package).
Runs are instrumented with a log of every query call: the channel argument,
the package, the popped node, and the graph at pop time. -/

structure QueryCall where
  qchannels : List String
  qpackage : String
  qnode : DependencyNode
  qgraph : Graph DependencyNode
deriving DecidableEq

/-- `networkx.ancestors(dep_graph, node)`: every node with a path to
`node`, excluding `node` itself. -/
def ancestorsList (g : Graph DependencyNode) (v : DependencyNode) :
    List DependencyNode :=
  g.nodes.filter fun x => decide (x ≠ v) && decide (g.Reaches x v)

/-- Lines 345-349: the set of ancestor build commands and the concatenation
of their channel lists. -/
def ancestorChannels (g : Graph DependencyNode) (v : DependencyNode) :
    List String :=
  ((((ancestorsList g v).filterMap DependencyNode.build_command).dedup).map
    BuildCommand.channels).flatten

/-- Lines 363-372: link each dependency of the resolved package to an
existing node with a matching package name, or to a fresh external node
that is pushed onto the work set. -/
def resolveDeps (node : DependencyNode) :
    List String → Graph DependencyNode → List DependencyNode →
      Graph DependencyNode × List DependencyNode
  | [], g, work => (g, work)
  | dep :: deps, g, work =>
    match (g.nodes.filter (matchesDep dep)).head? with
    | some m => resolveDeps node deps (g.addEdge node m) work
    | none =>
      resolveDeps node deps (g.addEdge node (mkExternal dep))
        (work ++ [mkExternal (dep)])

/-- Lines 350-372: process the packages of one popped node.  `chans` is the
channel argument computed once at pop time, `gPop` the graph at pop time
(recorded into the log); already-seen package names are skipped, the query
is logged, a virtual package (empty result) is skipped, otherwise the
package node is added and its dependencies linked. -/
def resolvePackages (oracle : List String → String → Option (List String))
    (chans : List String) (gPop : Graph DependencyNode) (node : DependencyNode) :
    List String → Graph DependencyNode → Finset String → List DependencyNode →
      List QueryCall →
      Graph DependencyNode × Finset String × List DependencyNode × List QueryCall
  | [], g, seen, work, log => (g, seen, work, log)
  | pkg :: pkgs, g, seen, work, log =>
    if removeVersion pkg ∈ seen then
      resolvePackages oracle chans gPop node pkgs g seen work log
    else
      match oracle chans pkg with
      | none =>
        resolvePackages oracle chans gPop node pkgs g
          (insert (removeVersion pkg) seen) work (log ++ [⟨chans, pkg, node, gPop⟩])
      | some depList =>
        let r := resolveDeps node depList (g.addNode ⟨{pkg}, none, []⟩) work
        resolvePackages oracle chans gPop node pkgs r.1
          (insert (removeVersion pkg) seen) r.2 (log ++ [⟨chans, pkg, node, gPop⟩])

/-- The `while deps:` loop of `_create_remote_deps` (lines 343-372), fuel
bounded: pop one node, compute the channel priority list (own channels,
then ancestor build-command channels, then the global channels), process
its packages. -/
def remoteLoop (oracle : List String → String → Option (List String))
    (global : List String) :
    Nat → Graph DependencyNode → List DependencyNode → Finset String →
      List QueryCall → Graph DependencyNode × List QueryCall
  | 0, g, _, _, log => (g, log)
  | _ + 1, g, [], _, log => (g, log)
  | fuel + 1, g, node :: work, seen, log =>
    let chans := node.channels ++ ancestorChannels g node ++ global
    let r := resolvePackages oracle chans g node (finsetList node.packages)
      g seen work log
    remoteLoop oracle global fuel r.1 r.2.2.1 r.2.1 r.2.2.2

/-- Embeds `_create_remote_deps` (lines 337-375): the work set starts as
the graph's external nodes (no build command). -/
def createRemoteDeps (oracle : List String → String → Option (List String))
    (global : List String) (fuel : Nat) (g : Graph DependencyNode) :
    Graph DependencyNode × List QueryCall :=
  remoteLoop oracle global fuel g
    (g.nodes.filter fun n => decide (n.build_command = none)) ∅ []

/-- The per-call property claimed by C7. -/
def GoodCall (global : List String) (e : QueryCall) : Prop :=
  e.qnode.build_command = none ∧
  e.qchannels = e.qnode.channels ++ ancestorChannels e.qgraph e.qnode ++ global

theorem resolveDeps_work (node : DependencyNode) :
    ∀ (deps : List String) (g : Graph DependencyNode)
      (work : List DependencyNode),
      (∀ n ∈ work, n.build_command = none) →
      ∀ n ∈ (resolveDeps node deps g work).2, n.build_command = none := by
  intro deps
  induction deps with
  | nil => intro g work h; exact h
  | cons dep deps ih =>
    intro g work h
    unfold resolveDeps
    cases hh : (g.nodes.filter (matchesDep dep)).head? with
    | some m => exact ih _ work h
    | none =>
      refine ih _ (work ++ [mkExternal dep]) ?_
      intro n hn
      rcases List.mem_append.1 hn with h1 | h1
      · exact h n h1
      · have : n = mkExternal dep := by simpa using h1
        rw [this]
        rfl

theorem resolvePackages_spec (oracle : List String → String → Option (List String))
    (global chans : List String) (gPop : Graph DependencyNode)
    (node : DependencyNode) (hnode : node.build_command = none)
    (hch : chans = node.channels ++ ancestorChannels gPop node ++ global) :
    ∀ (pkgs : List String) (g : Graph DependencyNode) (seen : Finset String)
      (work : List DependencyNode) (log : List QueryCall),
      (∀ n ∈ work, n.build_command = none) → (∀ e ∈ log, GoodCall global e) →
      (∀ n ∈ (resolvePackages oracle chans gPop node pkgs g seen work log).2.2.1,
        n.build_command = none) ∧
      (∀ e ∈ (resolvePackages oracle chans gPop node pkgs g seen work log).2.2.2,
        GoodCall global e) := by
  intro pkgs
  induction pkgs with
  | nil => intro g seen work log hw hl; exact ⟨hw, hl⟩
  | cons pkg pkgs ih =>
    intro g seen work log hw hl
    unfold resolvePackages
    by_cases hseen : removeVersion pkg ∈ seen
    · rw [if_pos hseen]
      exact ih g seen work log hw hl
    · rw [if_neg hseen]
      have hl2 : ∀ e ∈ log ++ [⟨chans, pkg, node, gPop⟩], GoodCall global e := by
        intro e he
        rcases List.mem_append.1 he with h1 | h1
        · exact hl e h1
        · have : e = ⟨chans, pkg, node, gPop⟩ := by simpa using h1
          rw [this]
          exact ⟨hnode, hch⟩
      cases horc : oracle chans pkg with
      | none => exact ih g _ work _ hw hl2
      | some depList =>
        exact ih _ _ _ _
          (resolveDeps_work node depList (g.addNode ⟨{pkg}, none, []⟩) work hw) hl2

theorem remoteLoop_spec (oracle : List String → String → Option (List String))
    (global : List String) :
    ∀ (fuel : Nat) (g : Graph DependencyNode) (work : List DependencyNode)
      (seen : Finset String) (log : List QueryCall),
      (∀ n ∈ work, n.build_command = none) → (∀ e ∈ log, GoodCall global e) →
      ∀ e ∈ (remoteLoop oracle global fuel g work seen log).2, GoodCall global e := by
  intro fuel
  induction fuel with
  | zero => intro g work seen log _ hl; exact hl
  | succ fuel ih =>
    intro g work seen log hw hl
    cases work with
    | nil => exact hl
    | cons node work =>
      have hnode : node.build_command = none := hw node (by simp)
      have hrest : ∀ n ∈ work, n.build_command = none := fun n h => hw n (by simp [h])
      obtain ⟨hw2, hl2⟩ := resolvePackages_spec oracle global
        (node.channels ++ ancestorChannels g node ++ global) g node hnode rfl
        (finsetList node.packages) g seen work log hrest hl
      exact ih _ _ _ _ hw2 hl2

/-- C7: for every node popped from the remote resolver's work set, the
channel list passed to the external package query is the node's own
channels, then the build-command channels of the node's ancestors in the
graph (at pop time), then the global channel list, in exactly that order;
and the resolver never resolves a node that already has a build command. -/
theorem C7_remote_channels (oracle : List String → String → Option (List String))
    (global : List String) (fuel : Nat) (g0 : Graph DependencyNode) :
    ∀ e ∈ (createRemoteDeps oracle global fuel g0).2,
      e.qnode.build_command = none ∧
      e.qchannels =
        e.qnode.channels ++ ancestorChannels e.qgraph e.qnode ++ global := by
  intro e he
  have h := remoteLoop_spec oracle global fuel g0
    (g0.nodes.filter fun n => decide (n.build_command = none)) ∅ []
    (fun n hn => by simpa using (List.mem_filter.1 hn).2) (by simp) e he
  exact h

def nodeX : DependencyNode := ⟨{"p"}, none, ["chX"]⟩

def GwX : Graph DependencyNode := ⟨[nodeX], []⟩

theorem C7_remote_channels_witness :
    (⟨["chX", "g1"], "p", nodeX, GwX⟩ : QueryCall).qnode.build_command = none ∧
    (⟨["chX", "g1"], "p", nodeX, GwX⟩ : QueryCall).qchannels =
      (⟨["chX", "g1"], "p", nodeX, GwX⟩ : QueryCall).qnode.channels ++
        ancestorChannels
          (⟨["chX", "g1"], "p", nodeX, GwX⟩ : QueryCall).qgraph
          (⟨["chX", "g1"], "p", nodeX, GwX⟩ : QueryCall).qnode ++ ["g1"] :=
  C7_remote_channels (fun _ _ => none) ["g1"] 1 GwX
    ⟨["chX", "g1"], "p", nodeX, GwX⟩ (by decide)

/-! ## External-node stripping (`remove_external_deps_from_dag`) -/

namespace Graph

variable {V : Type} [DecidableEq V]

theorem predList_mem (G : Graph V) {v p : V} : p ∈ G.predList v ↔ G.EdgeRel p v := by
  simp only [predList, List.mem_map, List.mem_filter, EdgeRel]
  constructor
  · rintro ⟨e, ⟨he, hv⟩, rfl⟩
    have h2 : e.2 = v := by simpa using hv
    rwa [← h2]
  · intro h
    exact ⟨(p, v), ⟨h, by simp⟩, rfl⟩

/-- Embeds lines 504-510 for one external node: rewire each predecessor to
each successor, then remove the node with its incident edges. -/
def bypassNode (G : Graph V) (v : V) : Graph V :=
  ((G.predList v).foldl
    (fun g p => (G.succList v).foldl (fun g2 s => g2.addEdge p s) g) G).removeNode v

theorem addEdge_nodes_eq (G : Graph V) {a b : V} (ha : a ∈ G.nodes)
    (hb : b ∈ G.nodes) : (G.addEdge a b).nodes = G.nodes := by
  unfold addEdge addNode
  rw [if_pos ha]
  rw [if_pos hb]
  by_cases h : (a, b) ∈ G.edges <;> simp [h]

theorem addEdges_inner_nodes (p : V) :
    ∀ (ss : List V) (g : Graph V), p ∈ g.nodes → (∀ s ∈ ss, s ∈ g.nodes) →
      (ss.foldl (fun g2 s => g2.addEdge p s) g).nodes = g.nodes := by
  intro ss
  induction ss with
  | nil => intro g _ _; rfl
  | cons s ss ih =>
    intro g hp hs
    rw [List.foldl_cons]
    have he : (g.addEdge p s).nodes = g.nodes := addEdge_nodes_eq g hp (hs s (by simp))
    rw [ih (g.addEdge p s) (by rw [he]; exact hp)
      (fun x hx => by rw [he]; exact hs x (by simp [hx])), he]

theorem addEdges_outer_nodes (ss : List V) :
    ∀ (ps : List V) (g : Graph V), (∀ p ∈ ps, p ∈ g.nodes) →
      (∀ s ∈ ss, s ∈ g.nodes) →
      (ps.foldl (fun g p => ss.foldl (fun g2 s => g2.addEdge p s) g) g).nodes =
        g.nodes := by
  intro ps
  induction ps with
  | nil => intro g _ _; rfl
  | cons p ps ih =>
    intro g hp hs
    rw [List.foldl_cons]
    have he : (ss.foldl (fun g2 s => g2.addEdge p s) g).nodes = g.nodes :=
      addEdges_inner_nodes p ss g (hp p (by simp)) hs
    rw [ih _ (fun x hx => by rw [he]; exact hp x (by simp [hx]))
      (fun x hx => by rw [he]; exact hs x hx), he]

theorem addEdges_inner_edges (p : V) :
    ∀ (ss : List V) (g : Graph V) (e : V × V),
      e ∈ (ss.foldl (fun g2 s => g2.addEdge p s) g).edges ↔
        e ∈ g.edges ∨ (e.1 = p ∧ e.2 ∈ ss) := by
  intro ss
  induction ss with
  | nil => intro g e; simp
  | cons s ss ih =>
    intro g e
    rw [List.foldl_cons, ih, addEdge_edges_mem]
    simp only [List.mem_cons]
    constructor
    · rintro ((h | h) | ⟨h1, h2⟩)
      · exact Or.inl h
      · rw [h]
        exact Or.inr ⟨rfl, Or.inl rfl⟩
      · exact Or.inr ⟨h1, Or.inr h2⟩
    · rintro (h | ⟨h1, h2 | h2⟩)
      · exact Or.inl (Or.inl h)
      · refine Or.inl (Or.inr ?_)
        rw [← h1, ← h2, Prod.mk.eta]
      · exact Or.inr ⟨h1, h2⟩

theorem addEdges_outer_edges (ss : List V) :
    ∀ (ps : List V) (g : Graph V) (e : V × V),
      e ∈ (ps.foldl (fun g p => ss.foldl (fun g2 s => g2.addEdge p s) g) g).edges ↔
        e ∈ g.edges ∨ (e.1 ∈ ps ∧ e.2 ∈ ss) := by
  intro ps
  induction ps with
  | nil => intro g e; simp
  | cons p ps ih =>
    intro g e
    rw [List.foldl_cons, ih, addEdges_inner_edges]
    simp only [List.mem_cons]
    constructor
    · rintro ((h | ⟨h1, h2⟩) | ⟨h1, h2⟩)
      · exact Or.inl h
      · exact Or.inr ⟨Or.inl h1, h2⟩
      · exact Or.inr ⟨Or.inr h1, h2⟩
    · rintro (h | ⟨h1 | h1, h2⟩)
      · exact Or.inl (Or.inl h)
      · exact Or.inl (Or.inr ⟨h1, h2⟩)
      · exact Or.inr ⟨h1, h2⟩

theorem removeNode_nodes_mem (G : Graph V) (v x : V) :
    x ∈ (G.removeNode v).nodes ↔ x ∈ G.nodes ∧ x ≠ v := by
  unfold removeNode
  simp [List.mem_filter]

theorem removeNode_edges_mem (G : Graph V) (v : V) (e : V × V) :
    e ∈ (G.removeNode v).edges ↔ e ∈ G.edges ∧ e.1 ≠ v ∧ e.2 ≠ v := by
  unfold removeNode
  simp [List.mem_filter]

theorem bypass_nodes_mem (G : Graph V) (hwf : G.WF) (v x : V) :
    x ∈ (G.bypassNode v).nodes ↔ x ∈ G.nodes ∧ x ≠ v := by
  unfold bypassNode
  rw [removeNode_nodes_mem]
  rw [addEdges_outer_nodes (G.succList v) (G.predList v) G
    (fun p hp => (hwf.1 _ ((G.predList_mem).1 hp)).1)
    (fun s hs => G.succList_subset_nodes hwf hs)]

theorem bypass_edges_mem (G : Graph V) (v : V) (e : V × V) :
    e ∈ (G.bypassNode v).edges ↔
      (e.1 ≠ v ∧ e.2 ≠ v) ∧
        (e ∈ G.edges ∨ (G.EdgeRel e.1 v ∧ G.EdgeRel v e.2)) := by
  unfold bypassNode
  rw [removeNode_edges_mem, addEdges_outer_edges]
  constructor
  · rintro ⟨h1 | ⟨hp, hs⟩, h2, h3⟩
    · exact ⟨⟨h2, h3⟩, Or.inl h1⟩
    · exact ⟨⟨h2, h3⟩, Or.inr ⟨(G.predList_mem).1 hp, (G.succList_mem).1 hs⟩⟩
  · rintro ⟨⟨h2, h3⟩, h1 | ⟨hp, hs⟩⟩
    · exact ⟨Or.inl h1, h2, h3⟩
    · exact ⟨Or.inr ⟨(G.predList_mem).2 hp, (G.succList_mem).2 hs⟩, h2, h3⟩

theorem bypass_WF (G : Graph V) (hwf : G.WF) (v : V) : (G.bypassNode v).WF := by
  constructor
  · intro e he
    obtain ⟨⟨h1, h2⟩, hor⟩ := (G.bypass_edges_mem v e).1 he
    have hn1 : e.1 ∈ G.nodes := by
      rcases hor with h | ⟨hp, _⟩
      · exact (hwf.1 e h).1
      · exact (hwf.1 _ hp).1
    have hn2 : e.2 ∈ G.nodes := by
      rcases hor with h | ⟨_, hs⟩
      · exact (hwf.1 e h).2
      · exact (hwf.1 _ hs).2
    exact ⟨(G.bypass_nodes_mem hwf v e.1).2 ⟨hn1, h1⟩,
      (G.bypass_nodes_mem hwf v e.2).2 ⟨hn2, h2⟩⟩
  · unfold bypassNode removeNode
    exact List.Nodup.filter _ (by
      rw [addEdges_outer_nodes (G.succList v) (G.predList v) G
        (fun p hp => (hwf.1 _ ((G.predList_mem).1 hp)).1)
        (fun s hs => G.succList_subset_nodes hwf hs)]
      exact hwf.2)

theorem edge_bypass_of_edge (G : Graph V) (v : V) {a c : V} (ha : a ≠ v)
    (hc : c ≠ v) (h : G.EdgeRel a c) : (G.bypassNode v).EdgeRel a c :=
  (G.bypass_edges_mem v (a, c)).2 ⟨⟨ha, hc⟩, Or.inl h⟩

theorem edge_bypass_through (G : Graph V) (v : V) {a d : V} (ha : a ≠ v)
    (hd : d ≠ v) (h1 : G.EdgeRel a v) (h2 : G.EdgeRel v d) :
    (G.bypassNode v).EdgeRel a d :=
  (G.bypass_edges_mem v (a, d)).2 ⟨⟨ha, hd⟩, Or.inr ⟨h1, h2⟩⟩

theorem chain_bypass (G : Graph V) (v : V) :
    ∀ (n : Nat) (l : List V) (a b : V), l.length ≤ n →
      List.Chain G.EdgeRel a l → (a :: l).getLast? = some b →
      a ≠ v → b ≠ v → (G.bypassNode v).Reaches a b := by
  intro n
  induction n with
  | zero =>
    intro l a b hlen hch hlast ha hb
    have hl : l = [] := List.length_eq_zero.1 (Nat.le_zero.1 hlen)
    subst hl
    have : a = b := by simpa using hlast
    rw [← this]
    exact Relation.ReflTransGen.refl
  | succ n ih =>
    intro l a b hlen hch hlast ha hb
    cases l with
    | nil =>
      have : a = b := by simpa using hlast
      rw [← this]
      exact Relation.ReflTransGen.refl
    | cons c l' =>
      rw [List.chain_cons] at hch
      obtain ⟨hac, hch'⟩ := hch
      rw [List.getLast?_cons_cons] at hlast
      by_cases hcv : c = v
      · cases l' with
        | nil =>
          have hcb : c = b := by simpa using hlast
          exact absurd (hcb ▸ hcv) hb
        | cons d l'' =>
          rw [List.chain_cons] at hch'
          obtain ⟨hcd, hch''⟩ := hch'
          rw [List.getLast?_cons_cons] at hlast
          by_cases hdv : d = v
          · have hcd' : c = d := hcv.trans hdv.symm
            have hchain2 : List.Chain G.EdgeRel a (c :: l'') := by
              rw [List.chain_cons]
              refine ⟨hac, ?_⟩
              rw [hcd']
              exact hch''
            have hlast2 : (a :: c :: l'').getLast? = some b := by
              rw [List.getLast?_cons_cons]
              cases l'' with
              | nil =>
                have hdb : d = b := by simpa using hlast
                exact absurd (hdb ▸ hdv) hb
              | cons x t =>
                rw [List.getLast?_cons_cons] at hlast ⊢
                exact hlast
            refine ih (c :: l'') a b ?_ hchain2 hlast2 ha hb
            simp only [List.length_cons] at hlen ⊢
            omega
          · have hedge : (G.bypassNode v).EdgeRel a d :=
              G.edge_bypass_through v ha hdv (hcv ▸ hac) (hcv ▸ hcd)
            have hrest : (G.bypassNode v).Reaches d b :=
              ih l'' d b (by simp only [List.length_cons] at hlen; omega) hch''
                hlast hdv hb
            exact Relation.ReflTransGen.head hedge hrest
      · have hedge : (G.bypassNode v).EdgeRel a c :=
          G.edge_bypass_of_edge v ha hcv hac
        have hrest : (G.bypassNode v).Reaches c b :=
          ih l' c b (by simp at hlen; omega) hch' hlast hcv hb
        exact Relation.ReflTransGen.head hedge hrest

end Graph

namespace Graph

variable {V : Type} [DecidableEq V]

theorem reaches_bypass (G : Graph V) (v : V) {a b : V} (ha : a ≠ v) (hb : b ≠ v)
    (h : G.Reaches a b) : (G.bypassNode v).Reaches a b := by
  obtain ⟨l, hl1, hl2⟩ := List.exists_chain_of_relationReflTransGen h
  refine G.chain_bypass v l.length l a b le_rfl hl1 ?_ ha hb
  rw [List.getLast?_eq_getLast (a :: l) (List.cons_ne_nil _ _), hl2]

theorem reaches_peel (G : Graph V) (v b : V) (hb : b ≠ v) :
    ∀ x, G.Reaches x b → x = v →
      ∃ d, d ≠ v ∧ G.EdgeRel v d ∧ G.Reaches d b := by
  intro x h
  refine Relation.ReflTransGen.head_induction_on
    (P := fun y _ => y = v → ∃ d, d ≠ v ∧ G.EdgeRel v d ∧ G.Reaches d b) h ?_ ?_
  · intro hbv
    exact absurd hbv hb
  · intro y c hyc hcb ihc hyv
    by_cases hcv : c = v
    · exact ihc hcv
    · exact ⟨c, hcv, hyv ▸ hyc, hcb⟩

theorem depends_bypass (G : Graph V) (v : V) {a b : V} (ha : a ≠ v) (hb : b ≠ v)
    (h : G.Depends a b) : (G.bypassNode v).Depends a b := by
  obtain ⟨c, hac, hcb⟩ := Relation.TransGen.head'_iff.1 h
  by_cases hcv : c = v
  · obtain ⟨d, hdv, hvd, hdb⟩ := G.reaches_peel v b hb c (hcv ▸ hcb) hcv
    exact Relation.TransGen.head' (G.edge_bypass_through v ha hdv (hcv ▸ hac) hvd)
      (G.reaches_bypass v hdv hb hdb)
  · exact Relation.TransGen.head' (G.edge_bypass_of_edge v ha hcv hac)
      (G.reaches_bypass v hcv hb hcb)

end Graph

/-- Embeds `remove_external_deps_from_dag` (lines 499-510): bypass and
remove every node of the composed graph that has no build command
(`external_nodes` is computed once, before any removal). -/
def removeExternalDeps (G : Graph DependencyNode) : Graph DependencyNode :=
  (G.nodes.filter fun n => decide (n.build_command = none)).foldl Graph.bypassNode G

theorem buildable_ne_external {a v : DependencyNode}
    (ha : a.build_command.isSome) (hv : v.build_command = none) : a ≠ v := by
  intro he
  rw [he, hv] at ha
  simp at ha

theorem strip_fold_depends :
    ∀ (l : List DependencyNode) (g : Graph DependencyNode) (a b : DependencyNode),
      (∀ x ∈ l, x.build_command = none) →
      a.build_command.isSome → b.build_command.isSome →
      g.Depends a b → (l.foldl Graph.bypassNode g).Depends a b := by
  intro l
  induction l with
  | nil => intro g a b _ _ _ h; exact h
  | cons v l ih =>
    intro g a b hl ha hb h
    rw [List.foldl_cons]
    refine ih (g.bypassNode v) a b (fun x hx => hl x (by simp [hx])) ha hb ?_
    exact Graph.depends_bypass g v (buildable_ne_external ha (hl v (by simp)))
      (buildable_ne_external hb (hl v (by simp))) h

theorem strip_fold_WF :
    ∀ (l : List DependencyNode) (g : Graph DependencyNode), g.WF →
      (l.foldl Graph.bypassNode g).WF := by
  intro l
  induction l with
  | nil => intro g h; exact h
  | cons v l ih => intro g h; exact ih (g.bypassNode v) (g.bypass_WF h v)

theorem strip_fold_nodes :
    ∀ (l : List DependencyNode) (g : Graph DependencyNode), g.WF →
      ∀ x, x ∈ (l.foldl Graph.bypassNode g).nodes ↔ x ∈ g.nodes ∧ x ∉ l := by
  intro l
  induction l with
  | nil => intro g _ x; simp
  | cons v l ih =>
    intro g hwf x
    rw [List.foldl_cons, ih (g.bypassNode v) (g.bypass_WF hwf v) x,
      g.bypass_nodes_mem hwf v x]
    simp only [List.mem_cons, not_or]
    tauto

/-- C1: after `remove_external_deps_from_dag`, for all buildable nodes A, B
such that A depended (directly or transitively — hence in particular
through external-only nodes) on B before stripping, A still depends on B
after stripping; and the resulting graph contains only nodes with a
present build command. -/
theorem C1_strip_preserves (G : Graph DependencyNode) (hwf : G.WF) :
    (∀ a b : DependencyNode, a.build_command.isSome → b.build_command.isSome →
      G.Depends a b → (removeExternalDeps G).Depends a b) ∧
    (∀ n ∈ (removeExternalDeps G).nodes, n.build_command.isSome) := by
  constructor
  · intro a b ha hb hd
    refine strip_fold_depends _ G a b ?_ ha hb hd
    intro x hx
    have := (List.mem_filter.1 hx).2
    simpa using this
  · intro n hn
    unfold removeExternalDeps at hn
    obtain ⟨hn1, hn2⟩ := (strip_fold_nodes _ G hwf n).1 hn
    by_contra hbc
    have hnone : n.build_command = none := by
      cases h : n.build_command with
      | none => rfl
      | some c => rw [h] at hbc; simp at hbc
    exact hn2 (List.mem_filter.2 ⟨hn1, by simp [hnone]⟩)

def GwStrip : Graph DependencyNode :=
  ⟨[nodeA, mkExternal "mid", nodeB],
   [(nodeA, mkExternal "mid"), (mkExternal "mid", nodeB)]⟩

theorem C1_strip_preserves_witness :
    (removeExternalDeps GwStrip).Depends nodeA nodeB ∧
    nodeA.build_command.isSome :=
  ⟨(C1_strip_preserves GwStrip (by decide)).1 nodeA nodeB (by decide) (by decide)
    (Relation.TransGen.head
      (show GwStrip.EdgeRel nodeA (mkExternal "mid") by decide)
      (Relation.TransGen.single
        (show GwStrip.EdgeRel (mkExternal "mid") nodeB by decide))),
   (C1_strip_preserves GwStrip (by decide)).2 nodeA (by decide)⟩
